import Mathlib

/-!
Shallow embedding of `recover_seed.py`: GF(256) arithmetic, the BIP39-style
mnemonic codec, the two-share reconstruction loop of `main`, and the seed
derivation wrapper.  Machine bytes are modelled as `Nat` with explicit
masking (`&&& 0xff`) exactly where the Python source masks.
-/

/-- Python exceptions raised by the script: `ValueError(msg)` from explicit
`raise` statements and from `list.index` on a missing element, and
`IndexError` from out-of-range sequence indexing. -/
inductive PyError : Type
  | valueError : String → PyError
  | indexError : PyError
deriving DecidableEq, Repr

/-- `_gf256_add(a, b)`: bitwise XOR. -/
def gf256_add (a b : Nat) : Nat := a ^^^ b

/-- `_gf256_sub(a, b)`: bitwise XOR (same as addition in characteristic 2). -/
def gf256_sub (a b : Nat) : Nat := a ^^^ b

/-- One pass of the Russian-peasant loop body of `_gf256_mul`, acting on the
shifted operand `a`: `carry = a & 0x80; a <<= 1; if carry: a ^= 0x11b`. -/
def gf256_step (a : Nat) : Nat :=
  let carry := a &&& 0x80
  let a' := a <<< 1
  if carry ≠ 0 then a' ^^^ 0x11b else a'

/-- The 8-iteration loop of `_gf256_mul`, with accumulator `p`, operands
`a`, `b`, and remaining iteration count: `if b & 1: p ^= a`, then shift
and conditionally reduce `a`, then `b >>= 1`. -/
def gf256_mulLoop : Nat → Nat → Nat → Nat → Nat
  | p, _, _, 0 => p
  | p, a, b, Nat.succ n =>
    gf256_mulLoop (if b &&& 1 = 1 then p ^^^ a else p) (gf256_step a) (b >>> 1) n

/-- `_gf256_mul(a, b)`: mask both operands to bytes, run the 8-round
shift-and-reduce loop, and mask the result to a byte. -/
def gf256_mul (a b : Nat) : Nat :=
  gf256_mulLoop 0 (a &&& 0xff) (b &&& 0xff) 8 &&& 0xff

/-- `_gf256_inverse(a)`: 0 for 0, otherwise the first `b` in `range(1, 256)`
with `_gf256_mul(a, b) == 1`, falling back to 0. -/
def gf256_inverse (a : Nat) : Nat :=
  if a = 0 then 0
  else
    match (List.range' 1 255).find? (fun b => gf256_mul a b == 1) with
    | some b => b
    | none => 0

theorem gf256_mulLoop_zero_left (b : Nat) : ∀ n, gf256_mulLoop 0 0 b n = 0 := by
  have hstep : gf256_step 0 = 0 := by decide
  suffices h : ∀ n b, gf256_mulLoop 0 0 b n = 0 by intro n; exact h n b
  intro n
  induction n with
  | zero => intro b; rfl
  | succ n ih =>
    intro b
    simp only [gf256_mulLoop, hstep]
    by_cases h : b &&& 1 = 1 <;> simp only [h, if_pos, if_neg, if_false, Nat.xor_zero, ih]

theorem gf256_mulLoop_zero_right (a : Nat) : ∀ n, gf256_mulLoop 0 a 0 n = 0 := by
  suffices h : ∀ n a, gf256_mulLoop 0 a 0 n = 0 by intro n; exact h n a
  intro n
  induction n with
  | zero => intro a; rfl
  | succ n ih => intro a; simp only [gf256_mulLoop]; norm_num [ih]

/-- The accumulator of the multiplication loop factors out by XOR. -/
theorem gf256_mulLoop_acc : ∀ n p a b,
    gf256_mulLoop p a b n = p ^^^ gf256_mulLoop 0 a b n := by
  intro n
  induction n with
  | zero => intro p a b; simp [gf256_mulLoop]
  | succ n ih =>
    intro p a b
    simp only [gf256_mulLoop]
    by_cases h : b &&& 1 = 1
    · simp only [h, if_pos]
      rw [ih (p ^^^ a), ih (0 ^^^ a), Nat.zero_xor, Nat.xor_assoc]
    · simp only [h, if_neg, if_false]
      rw [ih p]

theorem xor_cancel_mid (a b c : Nat) : (a ^^^ c) ^^^ (b ^^^ c) = a ^^^ b := by
  rw [Nat.xor_assoc, Nat.xor_comm b c, ← Nat.xor_assoc c c b, Nat.xor_self, Nat.zero_xor]

theorem xor_mix (a b c d : Nat) : (a ^^^ b) ^^^ (c ^^^ d) = (a ^^^ c) ^^^ (b ^^^ d) := by
  rw [Nat.xor_assoc a b (c ^^^ d), Nat.xor_assoc a c (b ^^^ d)]
  congr 1
  rw [← Nat.xor_assoc b c d, Nat.xor_comm b c, Nat.xor_assoc c b d]

theorem xor_rot (a b c : Nat) : a ^^^ (b ^^^ c) = b ^^^ (a ^^^ c) := by
  rw [← Nat.xor_assoc, Nat.xor_comm a b, Nat.xor_assoc]

theorem testBit_0x80 (i : Nat) : Nat.testBit 0x80 i = decide (7 = i) := by
  have h128 : (0x80 : Nat) = 2 ^ 7 := by norm_num
  rw [h128, Nat.testBit_two_pow]

theorem and_0x80_eq (x : Nat) : x &&& 0x80 = if x.testBit 7 then 0x80 else 0 := by
  apply Nat.eq_of_testBit_eq
  intro i
  rw [Nat.testBit_and, testBit_0x80]
  by_cases hi : 7 = i
  · subst hi
    cases hx : x.testBit 7 <;> simp [hx, testBit_0x80]
  · cases hx : x.testBit 7 <;> simp [hx, hi, testBit_0x80]

theorem xor_shiftLeft_one (u v : Nat) : (u ^^^ v) <<< 1 = u <<< 1 ^^^ v <<< 1 := by
  apply Nat.eq_of_testBit_eq
  intro i
  simp only [Nat.testBit_shiftLeft, Nat.testBit_xor]
  by_cases h : 1 ≤ i <;> simp [h]

theorem xor_shiftRight_distrib (u v n : Nat) : (u ^^^ v) >>> n = u >>> n ^^^ v >>> n := by
  apply Nat.eq_of_testBit_eq
  intro i
  simp [Nat.testBit_shiftRight, Nat.testBit_xor]

/-- The shift-and-reduce step is XOR-linear. -/
theorem gf256_step_linear (x y : Nat) :
    gf256_step (x ^^^ y) = gf256_step x ^^^ gf256_step y := by
  unfold gf256_step
  simp only [and_0x80_eq, Nat.testBit_xor, xor_shiftLeft_one]
  cases hx : x.testBit 7 <;> cases hy : y.testBit 7 <;>
    simp only [Bool.xor_false, Bool.xor_true, Bool.not_true, Bool.not_false,
      if_true, if_false, ite_true, ite_false] <;> norm_num
  · rw [Nat.xor_assoc]
  · rw [Nat.xor_assoc, Nat.xor_assoc, Nat.xor_comm 0x11b (y <<< 1)]
  · rw [Nat.xor_comm (y <<< 1) 0x11b, Nat.xor_assoc,
      ← Nat.xor_assoc 0x11b 0x11b (y <<< 1), Nat.xor_self, Nat.zero_xor]

/-- Parity of an XOR is the XOR of parities, phrased on `&&& 1`. -/
theorem and_one_xor (b1 b2 : Nat) :
    (b1 ^^^ b2) &&& 1 = (b1 &&& 1) ^^^ (b2 &&& 1) :=
  Nat.and_xor_distrib_right

theorem and_one_cases (b : Nat) : b &&& 1 = 0 ∨ b &&& 1 = 1 := by
  rw [Nat.and_one_is_mod]
  omega

/-- The multiplication loop is XOR-linear in the second operand. -/
theorem gf256_mulLoop_linear_b : ∀ n a b1 b2,
    gf256_mulLoop 0 a (b1 ^^^ b2) n =
      gf256_mulLoop 0 a b1 n ^^^ gf256_mulLoop 0 a b2 n := by
  intro n
  induction n with
  | zero => intro a b1 b2; simp [gf256_mulLoop]
  | succ n ih =>
    intro a b1 b2
    simp only [gf256_mulLoop]
    rw [gf256_mulLoop_acc _ (if (b1 ^^^ b2) &&& 1 = 1 then 0 ^^^ a else 0),
      gf256_mulLoop_acc _ (if b1 &&& 1 = 1 then 0 ^^^ a else 0),
      gf256_mulLoop_acc _ (if b2 &&& 1 = 1 then 0 ^^^ a else 0),
      xor_shiftRight_distrib, ih]
    have hx := and_one_xor b1 b2
    rcases and_one_cases b1 with h1 | h1 <;> rcases and_one_cases b2 with h2 | h2 <;>
      rw [h1, h2] at hx <;>
      simp only [Nat.zero_xor, Nat.xor_zero, Nat.xor_self] at hx <;>
      simp only [hx, h1, h2] <;> norm_num <;>
      first
        | rfl
        | exact xor_rot _ _ _
        | (rw [← Nat.xor_assoc]; done)
        | (rw [xor_mix, Nat.xor_self, Nat.zero_xor]; done)

/-- The multiplication loop is XOR-linear in the first operand. -/
theorem gf256_mulLoop_linear_a : ∀ n x y b,
    gf256_mulLoop 0 (x ^^^ y) b n =
      gf256_mulLoop 0 x b n ^^^ gf256_mulLoop 0 y b n := by
  intro n
  induction n with
  | zero => intro x y b; simp [gf256_mulLoop]
  | succ n ih =>
    intro x y b
    simp only [gf256_mulLoop]
    rw [gf256_mulLoop_acc _ (if b &&& 1 = 1 then 0 ^^^ (x ^^^ y) else 0),
      gf256_mulLoop_acc _ (if b &&& 1 = 1 then 0 ^^^ x else 0),
      gf256_mulLoop_acc _ (if b &&& 1 = 1 then 0 ^^^ y else 0),
      gf256_step_linear, ih]
    rcases and_one_cases b with h | h <;> simp only [h] <;> norm_num <;>
      first
        | rfl
        | exact xor_mix _ _ _ _

theorem and_0xff_eq_mod (x : Nat) : x &&& 0xff = x % 256 := by
  have h : x &&& 2 ^ 8 - 1 = x % 2 ^ 8 := Nat.and_pow_two_sub_one_eq_mod x 8
  norm_num at h
  exact h

theorem and_0xff_of_lt {x : Nat} (h : x < 256) : x &&& 0xff = x := by
  rw [and_0xff_eq_mod, Nat.mod_eq_of_lt h]

/-- `_gf256_mul` only ever returns bytes. -/
theorem gf256_mul_lt (a b : Nat) : gf256_mul a b < 256 := by
  unfold gf256_mul
  rw [and_0xff_eq_mod]
  exact Nat.mod_lt _ (by norm_num)

theorem gf256_mul_zero_left (b : Nat) : gf256_mul 0 b = 0 := by
  unfold gf256_mul
  norm_num [gf256_mulLoop_zero_left]

theorem gf256_mul_zero_right (a : Nat) : gf256_mul a 0 = 0 := by
  unfold gf256_mul
  norm_num [gf256_mulLoop_zero_right]

/-- `_gf256_mul` is XOR-linear in its second operand on byte inputs. -/
theorem gf256_mul_linear_right (a : Nat) {b1 b2 : Nat} (h1 : b1 < 256) (h2 : b2 < 256) :
    gf256_mul a (b1 ^^^ b2) = gf256_mul a b1 ^^^ gf256_mul a b2 := by
  unfold gf256_mul
  have hx : b1 ^^^ b2 < 256 := Nat.xor_lt_two_pow (n := 8) (by norm_num at *; omega) (by norm_num at *; omega)
  rw [and_0xff_of_lt hx, and_0xff_of_lt h1, and_0xff_of_lt h2,
    gf256_mulLoop_linear_b, Nat.and_xor_distrib_right]

/-- `_gf256_mul` is XOR-linear in its first operand on byte inputs. -/
theorem gf256_mul_linear_left {a1 a2 : Nat} (b : Nat) (h1 : a1 < 256) (h2 : a2 < 256) :
    gf256_mul (a1 ^^^ a2) b = gf256_mul a1 b ^^^ gf256_mul a2 b := by
  unfold gf256_mul
  have hx : a1 ^^^ a2 < 256 := Nat.xor_lt_two_pow (n := 8) (by norm_num at *; omega) (by norm_num at *; omega)
  rw [and_0xff_of_lt hx, and_0xff_of_lt h1, and_0xff_of_lt h2,
    gf256_mulLoop_linear_a, Nat.and_xor_distrib_right]

/-- A nonzero byte splits off its top set bit by XOR. -/
theorem byte_top_bit {n : Nat} (h0 : n ≠ 0) (h : n < 256) :
    n.log2 < 8 ∧ n ^^^ 2 ^ n.log2 < 2 ^ n.log2 ∧ n = 2 ^ n.log2 ^^^ (n ^^^ 2 ^ n.log2) := by
  have hk : n.log2 < 8 := (Nat.log2_lt h0).mpr h
  have hle : 2 ^ n.log2 ≤ n := Nat.log2_self_le h0
  have hlt : n < 2 ^ (n.log2 + 1) := Nat.lt_log2_self
  refine ⟨hk, ?_, ?_⟩
  · -- all bits of `n ^^^ 2 ^ n.log2` at positions ≥ log2 n are clear
    have htop : n.testBit n.log2 = true := by
      rw [Nat.testBit_to_div_mod]
      have h1 : 1 ≤ n / 2 ^ n.log2 := (Nat.one_le_div_iff (Nat.pos_pow_of_pos _ (by norm_num))).mpr hle
      have h2 : n / 2 ^ n.log2 < 2 := by
        rw [Nat.div_lt_iff_lt_mul (Nat.pos_pow_of_pos _ (by norm_num))]
        calc n < 2 ^ (n.log2 + 1) := hlt
        _ ≤ 2 ^ n.log2 * 2 := by rw [Nat.pow_succ]
        _ ≤ 2 * 2 ^ n.log2 := by rw [Nat.mul_comm]
      have : n / 2 ^ n.log2 = 1 := by omega
      simp [this]
    have hbits : ∀ j, n.log2 ≤ j → (n ^^^ 2 ^ n.log2).testBit j = false := by
      intro j hj
      rw [Nat.testBit_xor]
      rcases Nat.eq_or_lt_of_le hj with hj' | hj'
      · rw [← hj', htop, Nat.testBit_two_pow_self]
        rfl
      · have hn : n.testBit j = false := by
          apply Nat.testBit_lt_two_pow
          calc n < 2 ^ (n.log2 + 1) := hlt
          _ ≤ 2 ^ j := Nat.pow_le_pow_right (by norm_num) hj'
        have hp : (2 ^ n.log2).testBit j = false :=
          Nat.testBit_two_pow_of_ne (Nat.ne_of_lt hj')
        rw [hn, hp]
        rfl
    have heq : n ^^^ 2 ^ n.log2 = (n ^^^ 2 ^ n.log2) % 2 ^ n.log2 := by
      apply Nat.eq_of_testBit_eq
      intro i
      rw [Nat.testBit_mod_two_pow]
      by_cases hi : i < n.log2
      · simp [hi]
      · rw [hbits i (by omega)]
        simp [hi]
    rw [heq]
    exact Nat.mod_lt _ (Nat.pos_pow_of_pos _ (by norm_num))
  · rw [Nat.xor_comm n _, ← Nat.xor_assoc, Nat.xor_self, Nat.zero_xor]

/-- Two functions that are XOR-linear on bytes and agree on the eight
single-bit bytes agree on every byte. -/
theorem byte_ext {f g : Nat → Nat}
    (hf : ∀ x y, x < 256 → y < 256 → f (x ^^^ y) = f x ^^^ f y)
    (hg : ∀ x y, x < 256 → y < 256 → g (x ^^^ y) = g x ^^^ g y)
    (hbasis : ∀ k, k < 8 → f (2 ^ k) = g (2 ^ k)) :
    ∀ n, n < 256 → f n = g n := by
  have hf0 : f 0 = 0 := by
    have := hf 0 0 (by norm_num) (by norm_num)
    simp only [Nat.xor_self] at this
    omega
  have hg0 : g 0 = 0 := by
    have := hg 0 0 (by norm_num) (by norm_num)
    simp only [Nat.xor_self] at this
    omega
  intro n
  induction n using Nat.strong_induction_on with
  | _ n ih =>
    intro hn
    by_cases h0 : n = 0
    · rw [h0, hf0, hg0]
    · obtain ⟨hk, hm, hsplit⟩ := byte_top_bit h0 hn
      have hpow : (2 : Nat) ^ n.log2 < 256 := by
        calc (2 : Nat) ^ n.log2 < 2 ^ 8 := Nat.pow_lt_pow_right (by norm_num) hk
        _ = 256 := by norm_num
      have hmlt : n ^^^ 2 ^ n.log2 < 256 := by omega
      have hmn : n ^^^ 2 ^ n.log2 < n := by
        have := Nat.log2_self_le h0
        omega
      calc f n = f (2 ^ n.log2 ^^^ (n ^^^ 2 ^ n.log2)) := by rw [← hsplit]
      _ = f (2 ^ n.log2) ^^^ f (n ^^^ 2 ^ n.log2) := hf _ _ hpow hmlt
      _ = g (2 ^ n.log2) ^^^ g (n ^^^ 2 ^ n.log2) := by
          rw [hbasis _ hk, ih _ hmn hmlt]
      _ = g (2 ^ n.log2 ^^^ (n ^^^ 2 ^ n.log2)) := (hg _ _ hpow hmlt).symm
      _ = g n := by rw [← hsplit]

theorem pow_lt_256 {k : Nat} (h : k < 8) : 2 ^ k < 256 := by
  calc (2:Nat) ^ k < 2 ^ 8 := Nat.pow_lt_pow_right (by norm_num) h
  _ = 256 := by norm_num

theorem gf256_basis_comm : ∀ j k : Fin 8,
    gf256_mul (2 ^ j.val) (2 ^ k.val) = gf256_mul (2 ^ k.val) (2 ^ j.val) := by decide

theorem gf256_mul_comm_pow {k : Nat} (hk : k < 8) :
    ∀ b, b < 256 → gf256_mul (2 ^ k) b = gf256_mul b (2 ^ k) := by
  apply byte_ext (f := fun y => gf256_mul (2 ^ k) y) (g := fun y => gf256_mul y (2 ^ k))
  · intro x y hx hy; exact gf256_mul_linear_right _ hx hy
  · intro x y hx hy; exact gf256_mul_linear_left _ hx hy
  · intro j hj; exact gf256_basis_comm ⟨k, hk⟩ ⟨j, hj⟩

/-- `_gf256_mul` is commutative on byte inputs. -/
theorem gf256_mul_comm {a b : Nat} (ha : a < 256) (hb : b < 256) :
    gf256_mul a b = gf256_mul b a := by
  refine byte_ext (f := fun x => gf256_mul x b) (g := fun x => gf256_mul b x)
    ?_ ?_ ?_ a ha
  · intro x y hx hy; exact gf256_mul_linear_left _ hx hy
  · intro x y hx hy; exact gf256_mul_linear_right _ hx hy
  · intro k hk; exact gf256_mul_comm_pow hk b hb

theorem gf256_basis_assoc : ∀ j k l : Fin 8,
    gf256_mul (2 ^ j.val) (gf256_mul (2 ^ k.val) (2 ^ l.val)) =
      gf256_mul (gf256_mul (2 ^ j.val) (2 ^ k.val)) (2 ^ l.val) := by decide

theorem gf256_mul_assoc_pow2 {j k : Nat} (hj : j < 8) (hk : k < 8) :
    ∀ c, c < 256 → gf256_mul (2 ^ j) (gf256_mul (2 ^ k) c) =
      gf256_mul (gf256_mul (2 ^ j) (2 ^ k)) c := by
  apply byte_ext (f := fun c => gf256_mul (2 ^ j) (gf256_mul (2 ^ k) c))
    (g := fun c => gf256_mul (gf256_mul (2 ^ j) (2 ^ k)) c)
  · intro x y hx hy
    rw [gf256_mul_linear_right _ hx hy,
      gf256_mul_linear_right _ (gf256_mul_lt _ _) (gf256_mul_lt _ _)]
  · intro x y hx hy; exact gf256_mul_linear_right _ hx hy
  · intro l hl; exact gf256_basis_assoc ⟨j, hj⟩ ⟨k, hk⟩ ⟨l, hl⟩

theorem gf256_mul_assoc_pow1 {j : Nat} (hj : j < 8) {c : Nat} (hc : c < 256) :
    ∀ b, b < 256 → gf256_mul (2 ^ j) (gf256_mul b c) =
      gf256_mul (gf256_mul (2 ^ j) b) c := by
  apply byte_ext (f := fun b => gf256_mul (2 ^ j) (gf256_mul b c))
    (g := fun b => gf256_mul (gf256_mul (2 ^ j) b) c)
  · intro x y hx hy
    rw [gf256_mul_linear_left _ hx hy,
      gf256_mul_linear_right _ (gf256_mul_lt _ _) (gf256_mul_lt _ _)]
  · intro x y hx hy
    rw [gf256_mul_linear_right _ hx hy,
      gf256_mul_linear_left _ (gf256_mul_lt _ _) (gf256_mul_lt _ _)]
  · intro k hk; exact gf256_mul_assoc_pow2 hj hk c hc

/-- `_gf256_mul` is associative on byte inputs. -/
theorem gf256_mul_assoc {a b c : Nat} (ha : a < 256) (hb : b < 256) (hc : c < 256) :
    gf256_mul a (gf256_mul b c) = gf256_mul (gf256_mul a b) c := by
  refine byte_ext (f := fun a => gf256_mul a (gf256_mul b c))
    (g := fun a => gf256_mul (gf256_mul a b) c) ?_ ?_ ?_ a ha
  · intro x y hx hy; exact gf256_mul_linear_left _ hx hy
  · intro x y hx hy
    beta_reduce
    rw [gf256_mul_linear_left _ hx hy,
      gf256_mul_linear_left _ (gf256_mul_lt _ _) (gf256_mul_lt _ _)]
  · intro j hj; exact gf256_mul_assoc_pow1 hj hc b hb

theorem gf256_basis_one : ∀ k : Fin 8, gf256_mul (2 ^ k.val) 1 = 2 ^ k.val := by decide

/-- Multiplicative identity of `_gf256_mul` on byte inputs. -/
theorem gf256_mul_one : ∀ a, a < 256 → gf256_mul a 1 = a := by
  apply byte_ext (f := fun a => gf256_mul a 1) (g := fun a => a)
  · intro x y hx hy; exact gf256_mul_linear_left _ hx hy
  · intro x y hx hy; rfl
  · intro k hk; exact gf256_basis_one ⟨k, hk⟩

theorem gf256_one_mul {a : Nat} (h : a < 256) : gf256_mul 1 a = a := by
  rw [gf256_mul_comm (by norm_num) h, gf256_mul_one a h]

/-- In GF(256) an element has at most one multiplicative inverse. -/
theorem gf256_mul_eq_one_unique {a b1 b2 : Nat} (ha : a < 256) (hb1 : b1 < 256)
    (hb2 : b2 < 256) (h1 : gf256_mul a b1 = 1) (h2 : gf256_mul a b2 = 1) : b1 = b2 := by
  have h := gf256_mul_assoc hb1 ha hb2
  rw [h2, gf256_mul_one b1 hb1, gf256_mul_comm hb1 ha, h1, gf256_one_mul hb2] at h
  exact h

/-- The 256-entry inverse table of GF(256) under the polynomial 0x11b. -/
def gf256_invTable : List Nat :=
  [0, 1, 141, 246, 203, 82, 123, 209, 232, 79, 41, 192, 176, 225, 229, 199,
   116, 180, 170, 75, 153, 43, 96, 95, 88, 63, 253, 204, 255, 64, 238, 178,
   58, 110, 90, 241, 85, 77, 168, 201, 193, 10, 152, 21, 48, 68, 162, 194,
   44, 69, 146, 108, 243, 57, 102, 66, 242, 53, 32, 111, 119, 187, 89, 25,
   29, 254, 55, 103, 45, 49, 245, 105, 167, 100, 171, 19, 84, 37, 233, 9,
   237, 92, 5, 202, 76, 36, 135, 191, 24, 62, 34, 240, 81, 236, 97, 23,
   22, 94, 175, 211, 73, 166, 54, 67, 244, 71, 145, 223, 51, 147, 33, 59,
   121, 183, 151, 133, 16, 181, 186, 60, 182, 112, 208, 6, 161, 250, 129, 130,
   131, 126, 127, 128, 150, 115, 190, 86, 155, 158, 149, 217, 247, 2, 185, 164,
   222, 106, 50, 109, 216, 138, 132, 114, 42, 20, 159, 136, 249, 220, 137, 154,
   251, 124, 46, 195, 143, 184, 101, 72, 38, 200, 18, 74, 206, 231, 210, 98,
   12, 224, 31, 239, 17, 117, 120, 113, 165, 142, 118, 61, 189, 188, 134, 87,
   11, 40, 47, 163, 218, 212, 228, 15, 169, 39, 83, 4, 27, 252, 172, 230,
   122, 7, 174, 99, 197, 219, 226, 234, 148, 139, 196, 213, 157, 248, 144, 107,
   177, 13, 214, 235, 198, 14, 207, 173, 8, 78, 215, 227, 93, 80, 30, 179,
   91, 35, 56, 52, 104, 70, 3, 140, 221, 156, 125, 160, 205, 26, 65, 28]

set_option maxRecDepth 8000 in
theorem gf256_invTable_mul_fin : ∀ a : Fin 256, a.val ≠ 0 →
    gf256_mul a.val (gf256_invTable.getD a.val 0) = 1 := by decide

set_option maxRecDepth 8000 in
theorem gf256_invTable_bounds_fin : ∀ a : Fin 256,
    gf256_invTable.getD a.val 0 < 256 ∧ (a.val ≠ 0 → gf256_invTable.getD a.val 0 ≠ 0) := by
  decide

theorem gf256_invTable_mul {a : Nat} (h0 : a ≠ 0) (h : a < 256) :
    gf256_mul a (gf256_invTable.getD a 0) = 1 :=
  gf256_invTable_mul_fin ⟨a, h⟩ h0

theorem gf256_invTable_lt {a : Nat} (h : a < 256) : gf256_invTable.getD a 0 < 256 :=
  (gf256_invTable_bounds_fin ⟨a, h⟩).1

theorem gf256_invTable_ne_zero {a : Nat} (h0 : a ≠ 0) (h : a < 256) :
    gf256_invTable.getD a 0 ≠ 0 :=
  (gf256_invTable_bounds_fin ⟨a, h⟩).2 h0

theorem find?_eq_some_of_unique {α : Type} (p : α → Bool) :
    ∀ (l : List α) (x : α), x ∈ l → p x = true →
      (∀ y ∈ l, p y = true → y = x) → l.find? p = some x := by
  intro l
  induction l with
  | nil => intro x hx; cases hx
  | cons a l ih =>
    intro x hx hpx huniq
    by_cases hpa : p a = true
    · rw [List.find?_cons_of_pos _ hpa, huniq a (List.mem_cons_self a l) hpa]
    · rw [List.find?_cons_of_neg _ (by simp [hpa])]
      rcases List.mem_cons.mp hx with h | h
      · exact absurd (h ▸ hpx) hpa
      · exact ih x h hpx (fun y hy hpy => huniq y (List.mem_cons_of_mem a hy) hpy)

/-- On nonzero bytes, `_gf256_inverse` agrees with the reference table. -/
theorem gf256_inverse_eq_table {a : Nat} (h0 : a ≠ 0) (h : a < 256) :
    gf256_inverse a = gf256_invTable.getD a 0 := by
  have ht_lt : gf256_invTable.getD a 0 < 256 := gf256_invTable_lt h
  have ht_ne : gf256_invTable.getD a 0 ≠ 0 := gf256_invTable_ne_zero h0 h
  have hmul : gf256_mul a (gf256_invTable.getD a 0) = 1 := gf256_invTable_mul h0 h
  unfold gf256_inverse
  rw [if_neg h0]
  have hmem : gf256_invTable.getD a 0 ∈ List.range' 1 255 := by
    rw [List.mem_range']
    exact ⟨gf256_invTable.getD a 0 - 1, by omega, by omega⟩
  have hfind := find?_eq_some_of_unique (fun b => gf256_mul a b == 1)
    (List.range' 1 255) (gf256_invTable.getD a 0) hmem
    (by simp only [beq_iff_eq]; exact hmul)
    (by
      intro y hy hpy
      rw [List.mem_range'] at hy
      obtain ⟨i, hi, rfl⟩ := hy
      have hylt : 1 + 1 * i < 256 := by omega
      have hone : gf256_mul a (1 + 1 * i) = 1 := by simpa using hpy
      exact gf256_mul_eq_one_unique h hylt ht_lt hone hmul)
  rw [hfind]

/-- Existence half of C3: the computed inverse really multiplies to 1. -/
theorem gf256_mul_inverse {a : Nat} (h0 : a ≠ 0) (h : a < 256) :
    gf256_mul a (gf256_inverse a) = 1 := by
  rw [gf256_inverse_eq_table h0 h]
  exact gf256_invTable_mul h0 h

theorem gf256_inverse_lt (a : Nat) : gf256_inverse a < 256 := by
  unfold gf256_inverse
  by_cases h0 : a = 0
  · simp [h0]
  · rw [if_neg h0]
    cases hfind : (List.range' 1 255).find? (fun b => gf256_mul a b == 1) with
    | none => norm_num
    | some b =>
      have hb := List.mem_of_find?_eq_some hfind
      rw [List.mem_range'] at hb
      obtain ⟨i, hi, rfl⟩ := hb
      simp only []
      omega

/-- `inv_3 = _gf256_inverse(3)` as computed once in `main`. -/
def inv_3 : Nat := gf256_inverse 3

/-- The reconstruction loop of `main`: for each `i in range(len(share1_bytes))`,
read `y1 = share1_bytes[i]` and `y2 = share2_bytes[i]` (an out-of-range read
raises `IndexError`), and append `a_i = add(y1, mul(add(y1, y2), inv_3))`. -/
def reconstructSecret (share1_bytes share2_bytes : List Nat) : Except PyError (List Nat) :=
  (List.range share1_bytes.length).mapM (fun i =>
    match share1_bytes[i]?, share2_bytes[i]? with
    | some y1, some y2 =>
        Except.ok (gf256_add y1 (gf256_mul (gf256_add y1 y2) inv_3))
    | _, _ => Except.error PyError.indexError)

theorem mapM_except_ok {α β ε : Type} (f : α → Except ε β) (g : α → β) :
    ∀ l : List α, (∀ x ∈ l, f x = Except.ok (g x)) → l.mapM f = Except.ok (l.map g) := by
  intro l
  induction l with
  | nil => intro _; rfl
  | cons a l ih =>
    intro h
    rw [List.mapM_cons, h a (List.mem_cons_self a l),
      ih (fun x hx => h x (List.mem_cons_of_mem a hx))]
    rfl

theorem mapM_except_error {α β ε : Type} (f : α → Except ε β) (e : ε) :
    ∀ (l1 : List α) (x : α) (l2 : List α), (∀ y ∈ l1, ∃ b, f y = Except.ok b) →
      f x = Except.error e → (l1 ++ x :: l2).mapM f = Except.error e := by
  intro l1
  induction l1 with
  | nil =>
    intro x l2 _ hx
    rw [List.nil_append, List.mapM_cons, hx]
    rfl
  | cons a l1 ih =>
    intro x l2 h hx
    obtain ⟨b, hb⟩ := h a (List.mem_cons_self a l1)
    rw [List.cons_append, List.mapM_cons, hb,
      ih x l2 (fun y hy => h y (List.mem_cons_of_mem a hy)) hx]
    rfl

/-- When `share2` is at least as long as `share1`, the loop succeeds and
combines the byte positions of `share1` with the corresponding prefix of
`share2`. -/
theorem reconstructSecret_eq_zipWith (s1 s2 : List Nat) (h : s1.length ≤ s2.length) :
    reconstructSecret s1 s2 = Except.ok (List.zipWith
      (fun y1 y2 => gf256_add y1 (gf256_mul (gf256_add y1 y2) inv_3)) s1 s2) := by
  unfold reconstructSecret
  rw [mapM_except_ok _ (fun i => gf256_add (s1.getD i 0)
    (gf256_mul (gf256_add (s1.getD i 0) (s2.getD i 0)) inv_3)) _ ?ok]
  case ok =>
    intro i hi
    rw [List.mem_range] at hi
    beta_reduce
    rw [List.getElem?_eq_getElem hi, List.getElem?_eq_getElem (by omega : i < s2.length),
      List.getD_eq_getElem _ _ hi, List.getD_eq_getElem _ _ (by omega : i < s2.length)]
  congr 1
  apply List.ext_getElem
  · simp [List.length_zipWith]
    omega
  · intro i h1 h2
    simp only [List.getElem_map, List.getElem_range, List.getElem_zipWith]
    rw [List.getD_eq_getElem _ _ (by simp at h1 ⊢; omega),
      List.getD_eq_getElem _ _ (by simp [List.length_zipWith] at h2 ⊢; omega)]

/-- When `share2` is shorter than `share1`, the loop hits an out-of-range
read of `share2_bytes[i]` at `i = len(share2_bytes)` and raises `IndexError`. -/
theorem reconstructSecret_err (s1 s2 : List Nat) (h : s2.length < s1.length) :
    reconstructSecret s1 s2 = Except.error PyError.indexError := by
  unfold reconstructSecret
  have hsplit : s1.length = s2.length + (s1.length - s2.length - 1 + 1) := by omega
  rw [hsplit, List.range_add, List.range_succ_eq_map, List.map_cons]
  apply mapM_except_error
  · intro y hy
    rw [List.mem_range] at hy
    have h1 : y < s1.length := by omega
    exact ⟨gf256_add (s1.getD y 0) (gf256_mul (gf256_add (s1.getD y 0) (s2.getD y 0)) inv_3), by
      beta_reduce
      rw [List.getElem?_eq_getElem h1, List.getElem?_eq_getElem hy,
        List.getD_eq_getElem _ _ h1, List.getD_eq_getElem _ _ hy]⟩
  · beta_reduce
    rw [List.getElem?_eq_getElem (show s2.length + 0 < s1.length by omega),
      List.getElem?_eq_none (show s2.length ≤ s2.length + 0 by omega)]

/-- The per-byte reconstruction identity: with `y1 = s ^ b` (the value at
`x = 1`) and `y2 = s ^ mul(b, 2)` (the value at `x = 2`), `main`'s
per-byte computation returns `s`. -/
theorem recon_byte {s b : Nat} (hs : s < 256) (hb : b < 256) :
    gf256_add (gf256_add s b)
      (gf256_mul (gf256_add (gf256_add s b) (gf256_add s (gf256_mul b 2))) inv_3) = s := by
  have hm2 : gf256_mul b 2 < 256 := gf256_mul_lt _ _
  have h3 : gf256_mul b 3 = b ^^^ gf256_mul b 2 := by
    have h312 : (3:Nat) = 1 ^^^ 2 := by decide
    rw [h312, gf256_mul_linear_right b (by norm_num) (by norm_num), gf256_mul_one b hb]
  have hinv3 : inv_3 = 246 := by decide
  have h36 : gf256_mul 3 246 = 1 := by decide
  have hfin : gf256_mul (gf256_mul b 3) 246 = b := by
    rw [← gf256_mul_assoc hb (by norm_num) (by norm_num), h36, gf256_mul_one b hb]
  unfold gf256_add
  rw [show (s ^^^ b) ^^^ (s ^^^ gf256_mul b 2) = b ^^^ gf256_mul b 2 from by
    rw [xor_mix, Nat.xor_self, Nat.zero_xor]]
  rw [← h3, hinv3, hfin, Nat.xor_cancel_right]

/-- C1: for every 16-byte secret `S` and 16-byte blinding vector `B`, with
`share1[i] = add(S[i], B[i])` (the polynomial at `x = 1`) and
`share2[i] = add(S[i], mul(B[i], 2))` (the polynomial at `x = 2`), the
per-byte reconstruction of `main` — `b_i = mul(add(y1, y2), inverse(3))`
followed by `a_i = add(y1, b_i)` — recovers exactly `S`, byte for byte. -/
theorem C1_reconstruction_correct (S B : List Nat) (hS : S.length = 16)
    (hB : B.length = 16) (hSb : ∀ x ∈ S, x < 256) (hBb : ∀ x ∈ B, x < 256) :
    reconstructSecret (List.zipWith (fun s b => gf256_add s b) S B)
      (List.zipWith (fun s b => gf256_add s (gf256_mul b 2)) S B) = Except.ok S := by
  rw [reconstructSecret_eq_zipWith _ _ (by simp [List.length_zipWith, hS, hB])]
  congr 1
  apply List.ext_getElem
  · simp [List.length_zipWith, hS, hB]
  · intro i h1 h2
    simp only [List.getElem_zipWith]
    have hiS : i < S.length := h2
    have hiB : i < B.length := by omega
    exact recon_byte (hSb _ (List.getElem_mem hiS)) (hBb _ (List.getElem_mem hiB))

/-- Witness for C1 at a concrete secret and blinding vector. -/
theorem C1_reconstruction_correct_witness :
    (List.range 16).length = 16 ∧
    ((List.range 16).map (fun i => 16 * i + 5)).length = 16 ∧
    (∀ x ∈ List.range 16, x < 256) ∧
    (∀ x ∈ (List.range 16).map (fun i => 16 * i + 5), x < 256) ∧
    reconstructSecret
      (List.zipWith (fun s b => gf256_add s b) (List.range 16)
        ((List.range 16).map (fun i => 16 * i + 5)))
      (List.zipWith (fun s b => gf256_add s (gf256_mul b 2)) (List.range 16)
        ((List.range 16).map (fun i => 16 * i + 5))) = Except.ok (List.range 16) :=
  ⟨by decide, by decide, by decide, by decide,
    C1_reconstruction_correct _ _ (by decide) (by decide) (by decide) (by decide)⟩

/-- C5 (amended): the reconstruction loop of `main` performs no length or
index validation.  If `share2` is at least as long as `share1` it silently
combines against the truncated prefix of `share2` and succeeds; if `share2`
is shorter it fails with a Python `IndexError`; no `ShareLengthMismatch` or
`UnsupportedShareIndices` error exists anywhere in the code (the share
indices 1 and 2 are hard-wired into the `inverse(3)` constant). -/
theorem C5_no_length_validation (s1 s2 : List Nat) :
    (s1.length ≤ s2.length →
      reconstructSecret s1 s2 = Except.ok (List.zipWith
        (fun y1 y2 => gf256_add y1 (gf256_mul (gf256_add y1 y2) inv_3)) s1 s2)) ∧
    (s2.length < s1.length →
      reconstructSecret s1 s2 = Except.error PyError.indexError) :=
  ⟨reconstructSecret_eq_zipWith s1 s2, reconstructSecret_err s1 s2⟩

/-- Witness for the amended C5 at concrete shares of each shape. -/
theorem C5_no_length_validation_witness :
    reconstructSecret [3] [4, 5] = Except.ok (List.zipWith
      (fun y1 y2 => gf256_add y1 (gf256_mul (gf256_add y1 y2) inv_3)) [3] [4, 5]) ∧
    reconstructSecret [3, 3] [4] = Except.error PyError.indexError :=
  ⟨(C5_no_length_validation [3] [4, 5]).1 (by decide),
   (C5_no_length_validation [3, 3] [4]).2 (by decide)⟩

/-- C5 counterexample: reconstruction with shares of differing lengths does
not fail at all when `share2` is the longer one — it silently returns the
empty (truncated) result, contradicting the claimed `ShareLengthMismatch`
failure. -/
theorem C5_counterexample :
    ([] : List Nat).length ≠ [5].length ∧
      reconstructSecret [] [5] = Except.ok [] := ⟨by decide, by rfl⟩

/-- C3: for every nonzero field element `a` (`1 ≤ a ≤ 255`),
`_gf256_inverse(a)` returns the unique `b` with `_gf256_mul(a, b) == 1`. -/
theorem C3_inverse_correct (a : Nat) (h1 : 1 ≤ a) (h2 : a ≤ 255) :
    gf256_mul a (gf256_inverse a) = 1 ∧
      ∀ b, b ≤ 255 → gf256_mul a b = 1 → b = gf256_inverse a := by
  have h0 : a ≠ 0 := by omega
  have h : a < 256 := by omega
  refine ⟨gf256_mul_inverse h0 h, ?_⟩
  intro b hb hab
  exact gf256_mul_eq_one_unique h (by omega) (gf256_inverse_lt a) hab
    (gf256_mul_inverse h0 h)

/-- Witness for C3 at `a = 3`, whose inverse is 246. -/
theorem C3_inverse_correct_witness :
    1 ≤ 3 ∧ 3 ≤ 255 ∧ gf256_mul 3 (gf256_inverse 3) = 1 ∧ 246 = gf256_inverse 3 :=
  ⟨by decide, by decide, (C3_inverse_correct 3 (by decide) (by decide)).1,
   (C3_inverse_correct 3 (by decide) (by decide)).2 246 (by decide) (by decide)⟩

/-- C8: on bytes, `_gf256_add` is commutative and `_gf256_mul` is
commutative, associative, and distributes over `_gf256_add`. -/
theorem C8_field_algebra (a b c : Nat) (ha : a < 256) (hb : b < 256) (hc : c < 256) :
    gf256_add a b = gf256_add b a ∧
    gf256_mul a b = gf256_mul b a ∧
    gf256_mul a (gf256_mul b c) = gf256_mul (gf256_mul a b) c ∧
    gf256_mul a (gf256_add b c) = gf256_add (gf256_mul a b) (gf256_mul a c) :=
  ⟨Nat.xor_comm a b, gf256_mul_comm ha hb, gf256_mul_assoc ha hb hc,
    gf256_mul_linear_right a hb hc⟩

/-- Witness for C8 at `a = 3`, `b = 5`, `c = 7`. -/
theorem C8_field_algebra_witness :
    (3:Nat) < 256 ∧ (5:Nat) < 256 ∧ (7:Nat) < 256 ∧
    (gf256_add 3 5 = gf256_add 5 3 ∧
     gf256_mul 3 5 = gf256_mul 5 3 ∧
     gf256_mul 3 (gf256_mul 5 7) = gf256_mul (gf256_mul 3 5) 7 ∧
     gf256_mul 3 (gf256_add 5 7) = gf256_add (gf256_mul 3 5) (gf256_mul 3 7)) :=
  ⟨by decide, by decide, by decide,
    C8_field_algebra 3 5 7 (by decide) (by decide) (by decide)⟩

/-- C10: `_gf256_inverse` is a total function that returns the sentinel 0 on
input 0 (rather than raising), and always returns a byte, so the
reconstruction pipeline can never abort on an inverse of zero. -/
theorem C10_inverse_total :
    gf256_inverse 0 = 0 ∧ ∀ a, gf256_inverse a < 256 :=
  ⟨rfl, gf256_inverse_lt⟩

/-- MSB-first binary digits of `n`, exactly `bin(n)[2:]` in Python:
`0 ↦ "0"`, `1 ↦ "1"`, and otherwise the digits of `n // 2` followed by the
last bit. -/
def natBits (n : Nat) : List Bool :=
  if n = 0 then [false]
  else if n = 1 then [true]
  else natBits (n / 2) ++ [decide (n % 2 = 1)]
decreasing_by omega

/-- Python `str.zfill(w)` on a bit string: left-pad with `'0'` up to width
`w` (no change when already at least that long). -/
def zfill (w : Nat) (l : List Bool) : List Bool :=
  List.replicate (w - l.length) false ++ l

/-- Python `int(s, 2)` on a bit string: MSB-first binary value. -/
def bitsToNat (l : List Bool) : Nat :=
  l.foldl (fun acc b => 2 * acc + (if b then 1 else 0)) 0

theorem bitsToNat_foldl_acc : ∀ (l : List Bool) (acc : Nat),
    l.foldl (fun acc b => 2 * acc + (if b then 1 else 0)) acc =
      acc * 2 ^ l.length + bitsToNat l := by
  intro l
  induction l with
  | nil => intro acc; simp [bitsToNat]
  | cons b t ih =>
    intro acc
    show t.foldl _ (2 * acc + (if b then 1 else 0)) = _
    rw [ih (2 * acc + (if b then 1 else 0))]
    have hb : bitsToNat (b :: t) =
        (2 * 0 + (if b then 1 else 0)) * 2 ^ t.length + bitsToNat t := by
      show t.foldl _ (2 * 0 + (if b then 1 else 0)) = _
      rw [ih (2 * 0 + (if b then 1 else 0))]
    rw [hb]
    simp only [List.length_cons, Nat.pow_succ]
    cases b <;> simp <;> ring

theorem bitsToNat_cons (b : Bool) (t : List Bool) :
    bitsToNat (b :: t) = (if b then 1 else 0) * 2 ^ t.length + bitsToNat t := by
  show t.foldl _ (2 * 0 + (if b then 1 else 0)) = _
  rw [bitsToNat_foldl_acc]
  ring_nf

theorem bitsToNat_lt (l : List Bool) : bitsToNat l < 2 ^ l.length := by
  induction l with
  | nil => simp [bitsToNat]
  | cons b t ih =>
    rw [bitsToNat_cons]
    have h2 : (2:Nat) ^ (b :: t).length = 2 * 2 ^ t.length := by
      simp [List.length_cons, Nat.pow_succ]
      ring
    rw [h2]
    cases b <;> simp <;> omega

theorem bitsToNat_append (l1 l2 : List Bool) :
    bitsToNat (l1 ++ l2) = bitsToNat l1 * 2 ^ l2.length + bitsToNat l2 := by
  show (l1 ++ l2).foldl _ 0 = _
  rw [List.foldl_append]
  exact bitsToNat_foldl_acc l2 (bitsToNat l1)

theorem bitsToNat_replicate_false (k : Nat) :
    bitsToNat (List.replicate k false) = 0 := by
  induction k with
  | zero => rfl
  | succ k ih =>
    rw [List.replicate_succ, bitsToNat_cons, ih]
    simp

theorem bitsToNat_zfill (w : Nat) (l : List Bool) :
    bitsToNat (zfill w l) = bitsToNat l := by
  unfold zfill
  rw [bitsToNat_append, bitsToNat_replicate_false]
  simp

theorem bitsToNat_natBits (n : Nat) : bitsToNat (natBits n) = n := by
  induction n using Nat.strong_induction_on with
  | _ n ih =>
    rw [natBits]
    by_cases h0 : n = 0
    · simp only [h0, if_true]
      rfl
    · by_cases h1 : n = 1
      · simp only [h0, h1, if_false, if_true]
        rfl
      · simp only [h0, h1, if_false]
        rw [bitsToNat_append, ih (n / 2) (by omega)]
        have hmod : bitsToNat [decide (n % 2 = 1)] = n % 2 := by
          rcases Nat.mod_two_eq_zero_or_one n with h | h <;> simp [h, bitsToNat]
        rw [hmod]
        simp only [List.length_singleton]
        omega

theorem natBits_length_le : ∀ n w, n < 2 ^ w → 1 ≤ w → (natBits n).length ≤ w := by
  intro n
  induction n using Nat.strong_induction_on with
  | _ n ih =>
    intro w hn hw
    rw [natBits]
    by_cases h0 : n = 0
    · simp only [h0, if_true]
      simpa using hw
    · by_cases h1 : n = 1
      · simp only [h0, h1, if_false, if_true]
        simpa using hw
      · simp only [h0, h1, if_false]
        rw [List.length_append, List.length_singleton]
        have hw2 : 2 ≤ w := by
          by_contra hcon
          have : w = 1 := by omega
          subst this
          omega
        have hpow : (2:Nat) ^ w = 2 * 2 ^ (w - 1) := by
          conv_lhs => rw [show w = (w - 1) + 1 by omega]
          rw [Nat.pow_succ]
          ring
        have hdiv : n / 2 < 2 ^ (w - 1) := by
          rw [hpow] at hn
          omega
        have := ih (n / 2) (by omega) (w - 1) hdiv (by omega)
        omega

theorem zfill_length (w : Nat) (l : List Bool) :
    (zfill w l).length = max w l.length := by
  unfold zfill
  rw [List.length_append, List.length_replicate]
  omega

theorem bits_inj : ∀ (l1 l2 : List Bool), l1.length = l2.length →
    bitsToNat l1 = bitsToNat l2 → l1 = l2 := by
  intro l1
  induction l1 with
  | nil =>
    intro l2 hlen _
    cases l2 with
    | nil => rfl
    | cons b t => simp at hlen
  | cons b1 t1 ih =>
    intro l2 hlen h
    cases l2 with
    | nil => simp at hlen
    | cons b2 t2 =>
      have hl : t1.length = t2.length := by simpa using hlen
      rw [bitsToNat_cons, bitsToNat_cons, hl] at h
      have r1 := bitsToNat_lt t1
      have r2 := bitsToNat_lt t2
      rw [hl] at r1
      have hb : b1 = b2 := by
        cases b1 <;> cases b2 <;> simp at h ⊢ <;> omega
      subst hb
      have ht : bitsToNat t1 = bitsToNat t2 := by
        cases b1 <;> simp at h <;> omega
      rw [ih t2 hl ht]

/-- An exact-width bit string survives the value/re-render round trip. -/
theorem zfill_natBits_bitsToNat {l : List Bool} {w : Nat} (hw : 1 ≤ w)
    (hl : l.length = w) : zfill w (natBits (bitsToNat l)) = l := by
  apply bits_inj
  · rw [zfill_length]
    have hlt : bitsToNat l < 2 ^ w := hl ▸ bitsToNat_lt l
    have := natBits_length_le (bitsToNat l) w hlt hw
    omega
  · rw [bitsToNat_zfill, bitsToNat_natBits]

/-- Successive `w`-wide groups of a list, the working form of
`[l[i:i+w] for i in range(0, n*w, w)]`. -/
def takeGroups {α : Type} (w : Nat) : Nat → List α → List (List α)
  | 0, _ => []
  | n + 1, l => l.take w :: takeGroups w n (l.drop w)

theorem range'_shift (w : Nat) : ∀ n s, List.range' (s + w) n w = (List.range' s n w).map (· + w) := by
  intro n
  induction n with
  | zero => intro s; rfl
  | succ n ih =>
    intro s
    rw [List.range'_succ, List.range'_succ, List.map_cons, ← ih (s + w)]

/-- Python's `[... for i in range(0, n*w, w)]` slicing matches `takeGroups`. -/
theorem map_range'_eq_takeGroups {α : Type} (w : Nat) : ∀ (n : Nat) (l : List α),
    (List.range' 0 n w).map (fun i => (l.drop i).take w) = takeGroups w n l := by
  intro n
  induction n with
  | zero => intro l; rfl
  | succ n ih =>
    intro l
    rw [List.range'_succ, List.map_cons, List.drop_zero]
    show l.take w :: _ = l.take w :: takeGroups w n (l.drop w)
    congr 1
    have hsh : List.range' (0 + w) n w = (List.range' 0 n w).map (· + w) := range'_shift w n 0
    rw [hsh, List.map_map, ← ih (l.drop w)]
    apply List.map_congr_left
    intro i _
    show (l.drop (i + w)).take w = ((l.drop w).drop i).take w
    rw [List.drop_drop]
    congr 2
    omega

theorem takeGroups_length {α : Type} (w : Nat) : ∀ n (l : List α),
    (takeGroups w n l).length = n := by
  intro n
  induction n with
  | zero => intro l; rfl
  | succ n ih => intro l; simp [takeGroups, ih]

theorem takeGroups_join {α : Type} (w : Nat) : ∀ n (l : List α),
    l.length = n * w → (takeGroups w n l).flatten = l := by
  intro n
  induction n with
  | zero =>
    intro l h
    simp only [Nat.zero_mul] at h
    rw [List.eq_nil_of_length_eq_zero h]
    rfl
  | succ n ih =>
    intro l h
    show l.take w ++ (takeGroups w n (l.drop w)).flatten = l
    rw [ih (l.drop w) (by simp [List.length_drop]; rw [h]; ring_nf; omega),
      List.take_append_drop]

theorem takeGroups_mem_length {α : Type} (w : Nat) : ∀ n (l : List α),
    l.length = n * w → ∀ g ∈ takeGroups w n l, g.length = w := by
  intro n
  induction n with
  | zero => intro l _ g hg; cases hg
  | succ n ih =>
    intro l h g hg
    rcases List.mem_cons.mp hg with hgl | hgl
    · subst hgl
      rw [List.length_take]
      have : w ≤ l.length := by
        rw [h]
        calc w = 1 * w := by ring
        _ ≤ (n + 1) * w := Nat.mul_le_mul_right w (by omega)
      omega
    · exact ih (l.drop w) (by simp [List.length_drop]; rw [h]; ring_nf; omega) g hgl

theorem join_takeGroups {α : Type} (w : Nat) (hw : 0 < w) :
    ∀ (cs : List (List α)), (∀ c ∈ cs, c.length = w) →
      takeGroups w cs.length cs.flatten = cs := by
  intro cs
  induction cs with
  | nil => intro _; rfl
  | cons c cs ih =>
    intro h
    have hc : c.length = w := h c (List.mem_cons_self c cs)
    show ((c :: cs).flatten.take w) :: takeGroups w cs.length ((c :: cs).flatten.drop w) = c :: cs
    rw [List.flatten_cons, List.take_left' hc, List.drop_left' hc]
    congr 1
    exact ih (fun x hx => h x (List.mem_cons_of_mem c hx))

/-- Whitespace recognized by Python `str.split()` with no argument: every
code point CPython's `Py_UNICODE_ISSPACE` accepts — U+0009–U+000D,
U+001C–U+001F, U+0020, U+0085, U+00A0, U+1680, U+2000–U+200A, U+2028,
U+2029, U+202F, U+205F and U+3000. -/
def isPySpace (c : Char) : Bool :=
  let n := c.toNat
  (9 ≤ n && n ≤ 13) || (28 ≤ n && n ≤ 31) || n == 32 ||
  n == 0x85 || n == 0xA0 || n == 0x1680 ||
  (0x2000 ≤ n && n ≤ 0x200A) || n == 0x2028 || n == 0x2029 ||
  n == 0x202F || n == 0x205F || n == 0x3000

/-- Worker for Python `str.split()`: walk the characters keeping the current
word (reversed) in `acc`; whitespace flushes a nonempty current word and
never produces empty words. -/
def splitWsAux : List Char → List Char → List (List Char)
  | [], acc => if acc.isEmpty then [] else [acc.reverse]
  | c :: rest, acc =>
    if isPySpace c then
      if acc.isEmpty then splitWsAux rest [] else acc.reverse :: splitWsAux rest []
    else splitWsAux rest (c :: acc)

/-- Python `mnemonic.split()`: split on runs of whitespace, dropping empties. -/
def splitWs (s : List Char) : List (List Char) := splitWsAux s []

/-- Python `' '.join(words)`. -/
def joinSpaces : List (List Char) → List Char
  | [] => []
  | [w] => w
  | w :: ws => w ++ ' ' :: joinSpaces ws

/-- Python `word_list.index(word)`: index of the first occurrence, raising
`ValueError` when the word is absent. -/
def listIndex (word_list : List (List Char)) (word : List Char) : Except PyError Nat :=
  match word_list.findIdx? (fun w => w == word) with
  | some i => Except.ok i
  | none => Except.error (PyError.valueError "is not in list")

/-- `mnemonic_to_bytes(mnemonic, word_list)`: split into words, require
exactly 12, map each word to its wordlist index, concatenate the 11-bit
MSB-first renderings, require 132 bits, and pack the first 128 bits into
16 bytes (the trailing 4 checksum bits are discarded unchecked). -/
def mnemonic_to_bytes (mnemonic : List Char) (word_list : List (List Char)) :
    Except PyError (List Nat) := do
  let words := splitWs mnemonic
  if words.length ≠ 12 then
    throw (PyError.valueError "Mnemonic must have 12 words")
  let indices ← words.mapM (fun word => listIndex word_list word)
  let bit_string := (indices.map (fun idx => zfill 11 (natBits idx))).flatten
  if bit_string.length ≠ 132 then
    throw (PyError.valueError "Bit string length error")
  let entropy_bits := bit_string.take 128
  pure ((List.range' 0 16 8).map (fun i => bitsToNat ((entropy_bits.drop i).take 8)))

/-- `bytes_to_mnemonic(entropy_bytes, word_list)`: require 16 bytes, render
them as 128 bits, append the top 4 bits of the first byte of
`hashlib.sha256(entropy_bytes).digest()` — the SHA-256 primitive is external
to the repository, so that first digest byte is passed in as the function
argument `hashByte` — require 132 bits, and map each 11-bit group to
`word_list[idx]`, joining the words with single spaces. -/
def bytes_to_mnemonic (hashByte : List Nat → Nat) (entropy_bytes : List Nat)
    (word_list : List (List Char)) : Except PyError (List Char) := do
  if entropy_bytes.length ≠ 16 then
    throw (PyError.valueError "Entropy must be 16 bytes")
  let entropy_bits := (entropy_bytes.map (fun b => zfill 8 (natBits b))).flatten
  let hash_bits := zfill 8 (natBits (hashByte entropy_bytes))
  let checksum := hash_bits.take 4
  let total_bits := entropy_bits ++ checksum
  if total_bits.length ≠ 132 then
    throw (PyError.valueError "Total bits should be 132")
  let words ← (List.range' 0 12 11).mapM (fun i =>
    match word_list[(bitsToNat ((total_bits.drop i).take 11))]? with
    | some w => Except.ok w
    | none => Except.error PyError.indexError)
  pure (joinSpaces words)

/-- UTF-8 bytes of one code point (Python `str.encode('utf-8')`, per char). -/
def utf8Bytes (c : Char) : List Nat :=
  let n := c.toNat
  if n < 0x80 then [n]
  else if n < 0x800 then
    [0xC0 ||| (n >>> 6), 0x80 ||| (n &&& 0x3F)]
  else if n < 0x10000 then
    [0xE0 ||| (n >>> 12), 0x80 ||| ((n >>> 6) &&& 0x3F), 0x80 ||| (n &&& 0x3F)]
  else
    [0xF0 ||| (n >>> 18), 0x80 ||| ((n >>> 12) &&& 0x3F),
     0x80 ||| ((n >>> 6) &&& 0x3F), 0x80 ||| (n &&& 0x3F)]

/-- Python `s.encode('utf-8')`. -/
def utf8Encode (s : List Char) : List Nat := (s.map utf8Bytes).flatten

/-- The sixteen lowercase hexadecimal digits. -/
def hexChars : List Char := "0123456789abcdef".data

/-- Python `bytes.hex()`: two lowercase hex digits per byte. -/
def bytesHex (bs : List Nat) : List Char :=
  (bs.map (fun b => [hexChars.getD (b / 16) '0', hexChars.getD (b % 16) '0'])).flatten

/-- `mnemonic_to_seed(mnemonic, passphrase="")`: UTF-8 encode the mnemonic,
build the salt `"mnemonic" + passphrase`, call
`hashlib.pbkdf2_hmac('sha512', mnemonic_bytes, salt, 2048)` — an external
standard-library primitive, passed in as the argument `pbkdf2_hmac` — and
render the returned digest with `.hex()`. -/
def mnemonic_to_seed (pbkdf2_hmac : List Char → List Nat → List Nat → Nat → List Nat)
    (mnemonic : List Char) (passphrase : List Char := []) : List Char :=
  let mnemonic_bytes := utf8Encode mnemonic
  let salt := utf8Encode ("mnemonic".data ++ passphrase)
  let seed := pbkdf2_hmac "sha512".data mnemonic_bytes salt 2048
  bytesHex seed

theorem splitWsAux_no_ws : ∀ (w rest acc : List Char),
    (∀ c ∈ w, isPySpace c = false) →
    splitWsAux (w ++ rest) acc = splitWsAux rest (w.reverse ++ acc) := by
  intro w
  induction w with
  | nil => intro rest acc _; simp
  | cons c w ih =>
    intro rest acc h
    have hc : isPySpace c = false := h c (List.mem_cons_self c w)
    show splitWsAux (c :: (w ++ rest)) acc = _
    rw [splitWsAux, hc]
    simp only [Bool.false_eq_true, if_false]
    rw [ih rest (c :: acc) (fun x hx => h x (List.mem_cons_of_mem c hx))]
    congr 1
    simp

/-- `' '.join` then `split()` is the identity on lists of nonempty,
whitespace-free words. -/
theorem splitWs_joinSpaces : ∀ (ws : List (List Char)),
    (∀ w ∈ ws, w ≠ [] ∧ ∀ c ∈ w, isPySpace c = false) →
    splitWs (joinSpaces ws) = ws := by
  intro ws
  induction ws with
  | nil => intro _; rfl
  | cons w ws ih =>
    intro h
    obtain ⟨hw_ne, hw_ws⟩ := h w (List.mem_cons_self w ws)
    cases ws with
    | nil =>
      show splitWs w = [w]
      unfold splitWs
      have h1 : splitWsAux (w ++ []) [] = splitWsAux [] (w.reverse ++ []) :=
        splitWsAux_no_ws w [] [] hw_ws
      rw [List.append_nil, List.append_nil] at h1
      rw [h1]
      show (if w.reverse.isEmpty then [] else [w.reverse.reverse]) = [w]
      rw [if_neg (by simp [hw_ne]), List.reverse_reverse]
    | cons v vs =>
      show splitWs (w ++ ' ' :: joinSpaces (v :: vs)) = w :: v :: vs
      unfold splitWs
      rw [splitWsAux_no_ws w (' ' :: joinSpaces (v :: vs)) [] hw_ws]
      show splitWsAux (' ' :: joinSpaces (v :: vs)) (w.reverse ++ []) = w :: v :: vs
      rw [splitWsAux, show isPySpace ' ' = true from rfl]
      simp only [if_true]
      rw [if_neg (by simp [hw_ne]), List.append_nil, List.reverse_reverse]
      congr 1
      exact ih (fun x hx => h x (List.mem_cons_of_mem w hx))

theorem findIdx?_beq_getElem : ∀ (W : List (List Char)), W.Nodup →
    ∀ i (hi : i < W.length), W.findIdx? (fun w => w == W[i]) = some i := by
  intro W
  induction W with
  | nil => intro _ i hi; simp at hi
  | cons a W ih =>
    intro hnd i hi
    cases i with
    | zero => simp
    | succ j =>
      have hj : j < W.length := by simpa using hi
      have hmem : W[j] ∈ W := List.getElem_mem hj
      have hne : a ≠ W[j] := by
        intro hcon
        exact (List.nodup_cons.mp hnd).1 (hcon ▸ hmem)
      have hgetc : (a :: W)[j + 1] = W[j] := by simp
      rw [List.findIdx?_cons]
      rw [hgetc]
      rw [if_neg (by simp [hne])]
      rw [List.findIdx?_succ, ih (List.nodup_cons.mp hnd).2 j hj]
      rfl

/-- Looking up the word at a valid index of a duplicate-free wordlist with
`list.index` returns that index. -/
theorem listIndex_getElem {W : List (List Char)} (hnd : W.Nodup) {i : Nat}
    (hi : i < W.length) : listIndex W W[i] = Except.ok i := by
  unfold listIndex
  rw [findIdx?_beq_getElem W hnd i hi]

/-- `list.index` on a present word succeeds with an in-range index. -/
theorem listIndex_of_mem {W : List (List Char)} {w : List Char} (hw : w ∈ W) :
    ∃ i, listIndex W w = Except.ok i ∧ i < W.length ∧ W[i]? = some w := by
  unfold listIndex
  have hex : ∃ x, x ∈ W ∧ (fun u => u == w) x = true := ⟨w, hw, by simp⟩
  have hj := List.findIdx?_eq_some_of_exists hex
  obtain ⟨hjl, hpj, _⟩ := List.findIdx?_eq_some_iff_getElem.mp hj
  refine ⟨W.findIdx (fun u => u == w), by rw [hj], hjl, ?_⟩
  have hW : W[W.findIdx (fun u => u == w)] = w := by simpa using hpj
  rw [List.getElem?_eq_getElem hjl, hW]

theorem mapM_except_ok_exists {α β ε : Type} (f : α → Except ε β) :
    ∀ l : List α, (∀ x ∈ l, ∃ b, f x = Except.ok b) →
      ∃ bs, l.mapM f = Except.ok bs ∧
        List.Forall₂ (fun x b => f x = Except.ok b) l bs := by
  intro l
  induction l with
  | nil => intro _; exact ⟨[], rfl, List.Forall₂.nil⟩
  | cons a l ih =>
    intro h
    obtain ⟨b, hb⟩ := h a (List.mem_cons_self a l)
    obtain ⟨bs, hbs, hall⟩ := ih (fun x hx => h x (List.mem_cons_of_mem a hx))
    refine ⟨b :: bs, ?_, List.Forall₂.cons hb hall⟩
    rw [List.mapM_cons, hb, hbs]
    rfl

theorem mapM_except_error_cases {α β ε : Type} (f : α → Except ε β) :
    ∀ (l : List α) (e : ε), l.mapM f = Except.error e → ∃ x ∈ l, f x = Except.error e := by
  intro l
  induction l with
  | nil => intro e h; simp [List.mapM_nil] at h; cases h
  | cons a l ih =>
    intro e h
    rw [List.mapM_cons] at h
    cases hfa : f a with
    | error e' =>
      rw [hfa] at h
      have : e' = e := by
        simpa [Bind.bind, Except.bind, Functor.map, Except.map] using h
      exact ⟨a, List.mem_cons_self a l, by rw [hfa, this]⟩
    | ok b =>
      rw [hfa] at h
      cases hml : l.mapM f with
      | error e' =>
        rw [hml] at h
        have he : e' = e := by
          simpa [Bind.bind, Except.bind, Functor.map, Except.map] using h
        obtain ⟨x, hx, hfx⟩ := ih e' hml
        exact ⟨x, List.mem_cons_of_mem a hx, by rw [hfx, he]⟩
      | ok bs =>
        rw [hml] at h
        simp [Bind.bind, Except.bind, Functor.map, Except.map, Pure.pure, Except.pure] at h

theorem forall₂_mem_right {α β : Type} {R : α → β → Prop} :
    ∀ {l : List α} {bs : List β}, List.Forall₂ R l bs →
      ∀ b ∈ bs, ∃ x ∈ l, R x b := by
  intro l bs h
  induction h with
  | nil => intro b hb; cases hb
  | cons hR _ ih =>
    intro b hb
    rcases List.mem_cons.mp hb with rfl | hb
    · exact ⟨_, List.mem_cons_self _ _, hR⟩
    · obtain ⟨x, hx, hxR⟩ := ih b hb
      exact ⟨x, List.mem_cons_of_mem _ hx, hxR⟩

theorem listIndex_ok_lt {W : List (List Char)} {w : List Char} {i : Nat}
    (h : listIndex W w = Except.ok i) : i < W.length := by
  unfold listIndex at h
  cases hf : W.findIdx? (fun u => u == w) with
  | none => rw [hf] at h; cases h
  | some j =>
    rw [hf] at h
    cases h
    exact (List.findIdx?_eq_some_iff_getElem.mp hf).1

theorem listIndex_cases (W : List (List Char)) (w : List Char) :
    (∃ i, listIndex W w = Except.ok i) ∨
      listIndex W w = Except.error (PyError.valueError "is not in list") := by
  unfold listIndex
  cases W.findIdx? (fun u => u == w) with
  | none => exact Or.inr rfl
  | some j => exact Or.inl ⟨j, rfl⟩

theorem listIndex_error_of_not_mem {W : List (List Char)} {w : List Char} (h : w ∉ W) :
    listIndex W w = Except.error (PyError.valueError "is not in list") := by
  unfold listIndex
  cases hf : W.findIdx? (fun u => u == w) with
  | none => rfl
  | some j =>
    obtain ⟨hjl, hpj, _⟩ := List.findIdx?_eq_some_iff_getElem.mp hf
    have : W[j] = w := by simpa using hpj
    exact absurd (this ▸ List.getElem_mem hjl) h

theorem length_flatten_uniform {α : Type} (w : Nat) :
    ∀ (cs : List (List α)), (∀ c ∈ cs, c.length = w) →
      cs.flatten.length = cs.length * w := by
  intro cs
  induction cs with
  | nil => intro _; simp
  | cons c cs ih =>
    intro h
    rw [List.flatten_cons, List.length_append, h c (List.mem_cons_self c cs),
      ih (fun x hx => h x (List.mem_cons_of_mem c hx)), List.length_cons]
    ring

theorem mnemonic_to_bytes_len_error {m : List Char} {W : List (List Char)}
    (h : (splitWs m).length ≠ 12) :
    mnemonic_to_bytes m W =
      Except.error (PyError.valueError "Mnemonic must have 12 words") := by
  unfold mnemonic_to_bytes
  rw [if_pos h]
  rfl

theorem mnemonic_to_bytes_mapM_error {m : List Char} {W : List (List Char)} {e : PyError}
    (h12 : (splitWs m).length = 12)
    (h : (splitWs m).mapM (fun word => listIndex W word) = Except.error e) :
    mnemonic_to_bytes m W = Except.error e := by
  unfold mnemonic_to_bytes
  rw [if_neg (by omega)]
  show ((splitWs m).mapM (fun word => listIndex W word)).bind _ = Except.error e
  rw [h]
  rfl

theorem mnemonic_to_bytes_ok_eq {m : List Char} {W : List (List Char)} {idxs : List Nat}
    (h12 : (splitWs m).length = 12)
    (hmapM : (splitWs m).mapM (fun word => listIndex W word) = Except.ok idxs)
    (hlen : ((idxs.map (fun idx => zfill 11 (natBits idx))).flatten).length = 132) :
    mnemonic_to_bytes m W = Except.ok ((List.range' 0 16 8).map (fun i =>
      bitsToNat (((((idxs.map (fun idx => zfill 11 (natBits idx))).flatten).take 128).drop
        i).take 8))) := by
  unfold mnemonic_to_bytes
  rw [if_neg (by omega)]
  show ((splitWs m).mapM (fun word => listIndex W word)).bind _ = _
  rw [hmapM]
  show (if ((idxs.map (fun idx => zfill 11 (natBits idx))).flatten).length ≠ 132 then _
    else _) = _
  rw [if_neg (by simp [hlen])]
  rfl

/-- The 132-bit string built by `bytes_to_mnemonic`: 128 entropy bits
followed by the top 4 bits of the externally computed hash byte. -/
def mnemonicTotalBits (hashByte : List Nat → Nat) (entropy_bytes : List Nat) : List Bool :=
  (entropy_bytes.map (fun b => zfill 8 (natBits b))).flatten ++
    (zfill 8 (natBits (hashByte entropy_bytes))).take 4

theorem zfill_exact_length {n w : Nat} (hn : n < 2 ^ w) (hw : 1 ≤ w) :
    (zfill w (natBits n)).length = w := by
  rw [zfill_length]
  have := natBits_length_le n w hn hw
  omega

theorem mnemonicTotalBits_length {hashByte : List Nat → Nat} {e : List Nat}
    (h16 : e.length = 16) (hbytes : ∀ b ∈ e, b < 256) (hhash : hashByte e < 256) :
    (mnemonicTotalBits hashByte e).length = 132 := by
  unfold mnemonicTotalBits
  rw [List.length_append, List.length_take,
    length_flatten_uniform 8 _ (by
      intro c hc
      obtain ⟨b, hb, rfl⟩ := List.mem_map.mp hc
      exact zfill_exact_length (by
        have := hbytes b hb
        norm_num
        omega) (by norm_num)),
    List.length_map, h16,
    zfill_exact_length (by norm_num; omega) (by norm_num)]
  omega

theorem bytes_to_mnemonic_ok_eq {hashByte : List Nat → Nat} {e : List Nat}
    {W : List (List Char)}
    (h16 : e.length = 16) (hbytes : ∀ b ∈ e, b < 256) (hhash : hashByte e < 256)
    (hWlen : W.length = 2048) :
    bytes_to_mnemonic hashByte e W = Except.ok (joinSpaces
      ((takeGroups 11 12 (mnemonicTotalBits hashByte e)).map
        (fun g => W.getD (bitsToNat g) []))) := by
  have hT : (mnemonicTotalBits hashByte e).length = 132 :=
    mnemonicTotalBits_length h16 hbytes hhash
  unfold bytes_to_mnemonic
  rw [if_neg (by omega)]
  have key : (if (mnemonicTotalBits hashByte e).length ≠ 132 then
      (Except.error (PyError.valueError "Total bits should be 132") :
        Except PyError (List Char))
    else ((List.range' 0 12 11).mapM (fun i =>
      match W[(bitsToNat (((mnemonicTotalBits hashByte e).drop i).take 11))]? with
      | some w => Except.ok w
      | none => Except.error PyError.indexError)).bind
        (fun words => Except.ok (joinSpaces words))) =
      Except.ok (joinSpaces ((takeGroups 11 12 (mnemonicTotalBits hashByte e)).map
        (fun g => W.getD (bitsToNat g) []))) := by
    rw [if_neg (by simp [hT])]
    rw [mapM_except_ok _
      (fun i => W.getD (bitsToNat (((mnemonicTotalBits hashByte e).drop i).take 11)) []) _ ?allok]
    case allok =>
      intro i hi
      rw [List.mem_range'] at hi
      obtain ⟨k, hk, rfl⟩ := hi
      have hglen : (((mnemonicTotalBits hashByte e).drop (0 + 11 * k)).take 11).length = 11 := by
        rw [List.length_take, List.length_drop, hT]
        omega
      have hidx : bitsToNat (((mnemonicTotalBits hashByte e).drop (0 + 11 * k)).take 11) <
          W.length := by
        rw [hWlen]
        have hb := bitsToNat_lt (((mnemonicTotalBits hashByte e).drop (0 + 11 * k)).take 11)
        rw [hglen] at hb
        omega
      beta_reduce
      rw [List.getElem?_eq_getElem hidx, List.getD_eq_getElem _ _ hidx]
    show Except.ok (joinSpaces ((List.range' 0 12 11).map
      (fun i => W.getD (bitsToNat (((mnemonicTotalBits hashByte e).drop i).take 11)) []))) = _
    congr 1
    rw [← map_range'_eq_takeGroups 11 12 (mnemonicTotalBits hashByte e), List.map_map]
    rfl
  exact key

/-- C9: for every 16-byte entropy input and every wordlist of exactly 2048
words, `bytes_to_mnemonic` succeeds and its mnemonic is the space-join of
exactly 12 words, each present in the wordlist; every 11-bit group sliced
from the 132-bit string has numeric value below 2048, so each wordlist
lookup is in range. -/
theorem C9_encode_invariants (hashByte : List Nat → Nat) (e : List Nat)
    (W : List (List Char)) (h16 : e.length = 16) (hbytes : ∀ b ∈ e, b < 256)
    (hhash : hashByte e < 256) (hWlen : W.length = 2048) :
    ∃ ws : List (List Char),
      bytes_to_mnemonic hashByte e W = Except.ok (joinSpaces ws) ∧
      ws.length = 12 ∧ (∀ w ∈ ws, w ∈ W) ∧
      (∀ g ∈ takeGroups 11 12 (mnemonicTotalBits hashByte e), bitsToNat g < 2048) := by
  have hT : (mnemonicTotalBits hashByte e).length = 132 :=
    mnemonicTotalBits_length h16 hbytes hhash
  have hglen : ∀ g ∈ takeGroups 11 12 (mnemonicTotalBits hashByte e), g.length = 11 :=
    takeGroups_mem_length 11 12 _ (by omega)
  have hidx : ∀ g ∈ takeGroups 11 12 (mnemonicTotalBits hashByte e), bitsToNat g < 2048 := by
    intro g hg
    have h1 := bitsToNat_lt g
    rw [hglen g hg] at h1
    norm_num at h1
    exact h1
  refine ⟨(takeGroups 11 12 (mnemonicTotalBits hashByte e)).map
    (fun g => W.getD (bitsToNat g) []), bytes_to_mnemonic_ok_eq h16 hbytes hhash hWlen,
    ?_, ?_, hidx⟩
  · rw [List.length_map, takeGroups_length]
  · intro w hw
    obtain ⟨g, hg, rfl⟩ := List.mem_map.mp hw
    have hi : bitsToNat g < W.length := by rw [hWlen]; exact hidx g hg
    rw [List.getD_eq_getElem _ _ hi]
    exact List.getElem_mem hi

/-- An alphabet of 46 non-whitespace characters for building a concrete
2048-word wordlist. -/
def wlAlphabet : List Char := "abcdefghijklmnopqrstuvwxyzABCDEFGHIJKLMNOPQRST".data

/-- The `i`-th two-letter word over `wlAlphabet`, base 46. -/
def wordOfIdx (i : Nat) : List Char :=
  [wlAlphabet.getD (i / 46) 'z', wlAlphabet.getD (i % 46) 'z']

/-- A concrete wordlist of 2048 distinct two-letter words. -/
def testWordlist : List (List Char) := (List.range 2048).map wordOfIdx

theorem wlAlphabet_inj : ∀ j1 j2 : Fin 46,
    wlAlphabet.getD j1.val 'z' = wlAlphabet.getD j2.val 'z' → j1.val = j2.val := by decide

theorem wordOfIdx_inj {i1 i2 : Nat} (h1 : i1 < 2116) (h2 : i2 < 2116)
    (h : wordOfIdx i1 = wordOfIdx i2) : i1 = i2 := by
  unfold wordOfIdx at h
  simp only [List.cons.injEq, and_true] at h
  obtain ⟨hq, hr⟩ := h
  have hq' := wlAlphabet_inj ⟨i1 / 46, by omega⟩ ⟨i2 / 46, by omega⟩ hq
  have hr' := wlAlphabet_inj ⟨i1 % 46, by omega⟩ ⟨i2 % 46, by omega⟩ hr
  simp only at hq' hr'
  omega

theorem testWordlist_nodup : testWordlist.Nodup := by
  apply List.Nodup.map_on
  · intro x hx y hy h
    rw [List.mem_range] at hx hy
    exact wordOfIdx_inj (by omega) (by omega) h
  · exact List.nodup_range 2048

theorem wlAlphabet_no_ws : ∀ j : Nat, isPySpace (wlAlphabet.getD j 'z') = false := by
  intro j
  by_cases hj : j < 46
  · have := (by decide : ∀ j : Fin 46, isPySpace (wlAlphabet.getD j.val 'z') = false)
    exact this ⟨j, hj⟩
  · rw [List.getD_eq_default _ _ (by
      have : wlAlphabet.length = 46 := by decide
      omega)]
    decide

theorem testWordlist_words_ok : ∀ w ∈ testWordlist,
    w ≠ [] ∧ ∀ c ∈ w, isPySpace c = false := by
  intro w hw
  obtain ⟨i, _, rfl⟩ := List.mem_map.mp hw
  refine ⟨by simp [wordOfIdx], ?_⟩
  intro c hc
  unfold wordOfIdx at hc
  rcases List.mem_cons.mp hc with rfl | hc
  · exact wlAlphabet_no_ws _
  · rcases List.mem_cons.mp hc with rfl | hc
    · exact wlAlphabet_no_ws _
    · cases hc

theorem testWordlist_length : testWordlist.length = 2048 := by
  unfold testWordlist
  rw [List.length_map, List.length_range]

/-- Witness for C9 at concrete entropy, hash byte, and wordlist. -/
theorem C9_encode_invariants_witness :
    (List.range 16).length = 16 ∧ (∀ b ∈ List.range 16, b < 256) ∧
    ((fun _ : List Nat => 0) (List.range 16)) < 256 ∧ testWordlist.length = 2048 ∧
    ∃ ws : List (List Char),
      bytes_to_mnemonic (fun _ => 0) (List.range 16) testWordlist =
        Except.ok (joinSpaces ws) ∧
      ws.length = 12 ∧ (∀ w ∈ ws, w ∈ testWordlist) ∧
      (∀ g ∈ takeGroups 11 12 (mnemonicTotalBits (fun _ => 0) (List.range 16)),
        bitsToNat g < 2048) :=
  ⟨by decide, by decide, by decide, testWordlist_length,
    C9_encode_invariants (fun _ => 0) (List.range 16) testWordlist
      (by decide) (by decide) (by decide) testWordlist_length⟩

/-- The numeric value of Python `word_list.index(word)` when it succeeds
(0 when the word is absent). -/
def pyIdx (W : List (List Char)) (w : List Char) : Nat :=
  (W.findIdx? (fun u => u == w)).getD 0

theorem pyIdx_getElem {W : List (List Char)} (hnd : W.Nodup) {i : Nat}
    (hi : i < W.length) : pyIdx W W[i] = i := by
  unfold pyIdx
  rw [findIdx?_beq_getElem W hnd i hi]
  rfl

theorem listIndex_pyIdx_of_mem {W : List (List Char)} {w : List Char} (hw : w ∈ W) :
    listIndex W w = Except.ok (pyIdx W w) := by
  unfold listIndex pyIdx
  cases hf : W.findIdx? (fun u => u == w) with
  | none =>
    rw [List.findIdx?_eq_none_iff] at hf
    exact absurd (by simp : (w == w) = true) (by simpa using hf w hw)
  | some j => rfl

/-- C2: decoding the encoding of any 16-byte entropy buffer returns the
buffer exactly, for every 2048-entry duplicate-free wordlist of nonempty
whitespace-free words (`word` in the index/word bijection sense: a word is
a whitespace-delimited token, which is what `split()` recovers). -/
theorem C2_codec_roundtrip (hashByte : List Nat → Nat) (e : List Nat)
    (W : List (List Char)) (h16 : e.length = 16) (hbytes : ∀ b ∈ e, b < 256)
    (hhash : hashByte e < 256) (hWlen : W.length = 2048) (hnd : W.Nodup)
    (hwords : ∀ w ∈ W, w ≠ [] ∧ ∀ c ∈ w, isPySpace c = false) :
    ∃ m, bytes_to_mnemonic hashByte e W = Except.ok m ∧
      mnemonic_to_bytes m W = Except.ok e := by
  have hT : (mnemonicTotalBits hashByte e).length = 132 :=
    mnemonicTotalBits_length h16 hbytes hhash
  set G := takeGroups 11 12 (mnemonicTotalBits hashByte e) with hG
  have hglen : ∀ g ∈ G, g.length = 11 := takeGroups_mem_length 11 12 _ (by omega)
  have hidx : ∀ g ∈ G, bitsToNat g < 2048 := by
    intro g hg
    have h1 := bitsToNat_lt g
    rw [hglen g hg] at h1
    norm_num at h1
    exact h1
  set ws := G.map (fun g => W.getD (bitsToNat g) []) with hws
  have hws_mem : ∀ w ∈ ws, w ∈ W := by
    intro w hw
    obtain ⟨g, hg, rfl⟩ := List.mem_map.mp hw
    have hi : bitsToNat g < W.length := by rw [hWlen]; exact hidx g hg
    rw [List.getD_eq_getElem _ _ hi]
    exact List.getElem_mem hi
  refine ⟨joinSpaces ws, bytes_to_mnemonic_ok_eq h16 hbytes hhash hWlen, ?_⟩
  have hsplit : splitWs (joinSpaces ws) = ws :=
    splitWs_joinSpaces ws (fun w hw => hwords w (hws_mem w hw))
  have h12 : ws.length = 12 := by
    rw [hws, List.length_map, hG, takeGroups_length]
  have hmapM : ws.mapM (fun word => listIndex W word) =
      Except.ok (ws.map (pyIdx W)) :=
    mapM_except_ok _ (pyIdx W) ws (fun w hw => listIndex_pyIdx_of_mem (hws_mem w hw))
  have hidxs : ws.map (pyIdx W) = G.map bitsToNat := by
    rw [hws, List.map_map]
    apply List.map_congr_left
    intro g hg
    have hi : bitsToNat g < W.length := by rw [hWlen]; exact hidx g hg
    show pyIdx W (W.getD (bitsToNat g) []) = bitsToNat g
    rw [List.getD_eq_getElem _ _ hi]
    exact pyIdx_getElem hnd hi
  have hmapid : G.map (fun g => zfill 11 (natBits (bitsToNat g))) = G := by
    conv_rhs => rw [← List.map_id G]
    apply List.map_congr_left
    intro g hg
    exact zfill_natBits_bitsToNat (by norm_num) (hglen g hg)
  have hbits : ((ws.map (pyIdx W)).map (fun idx => zfill 11 (natBits idx))).flatten =
      mnemonicTotalBits hashByte e := by
    rw [hidxs, List.map_map]
    show (G.map (fun g => zfill 11 (natBits (bitsToNat g)))).flatten = _
    rw [hmapid, hG, takeGroups_join 11 12 _ (by omega)]
  have hbitlen : (((ws.map (pyIdx W)).map (fun idx => zfill 11 (natBits idx))).flatten).length
      = 132 := by rw [hbits, hT]
  rw [mnemonic_to_bytes_ok_eq (by rw [hsplit]; exact h12) (by rw [hsplit]; exact hmapM)
    hbitlen]
  congr 1
  rw [hbits]
  set E := (e.map (fun b => zfill 8 (natBits b))).flatten with hE
  have hElen : E.length = 128 := by
    rw [hE, length_flatten_uniform 8 _ (by
      intro c hc
      obtain ⟨b, hb, rfl⟩ := List.mem_map.mp hc
      exact zfill_exact_length (by
        have := hbytes b hb
        norm_num
        omega) (by norm_num)), List.length_map, h16]
  have htake : (mnemonicTotalBits hashByte e).take 128 = E := by
    unfold mnemonicTotalBits
    rw [← hE, List.take_append_eq_append_take, List.take_of_length_le (by omega),
      hElen]
    norm_num
  rw [htake]
  have hrange : (List.range' 0 16 8).map (fun i => bitsToNat ((E.drop i).take 8)) =
      (takeGroups 8 16 E).map bitsToNat := by
    rw [← map_range'_eq_takeGroups 8 16 E, List.map_map]
    rfl
  rw [hrange]
  have hcs : takeGroups 8 16 E = e.map (fun b => zfill 8 (natBits b)) := by
    rw [hE]
    have h16' : (16 : Nat) = (e.map (fun b => zfill 8 (natBits b))).length := by
      rw [List.length_map, h16]
    rw [h16']
    apply join_takeGroups 8 (by norm_num)
    intro c hc
    obtain ⟨b, hb, rfl⟩ := List.mem_map.mp hc
    exact zfill_exact_length (by
      have := hbytes b hb
      norm_num
      omega) (by norm_num)
  rw [hcs, List.map_map]
  conv_rhs => rw [← List.map_id e]
  apply List.map_congr_left
  intro b hb
  show bitsToNat (zfill 8 (natBits b)) = b
  rw [bitsToNat_zfill, bitsToNat_natBits]

/-- Witness for C2 at concrete entropy, hash byte, and wordlist. -/
theorem C2_codec_roundtrip_witness :
    (List.range 16).length = 16 ∧ (∀ b ∈ List.range 16, b < 256) ∧
    ((fun _ : List Nat => 0) (List.range 16)) < 256 ∧
    testWordlist.length = 2048 ∧ testWordlist.Nodup ∧
    (∀ w ∈ testWordlist, w ≠ [] ∧ ∀ c ∈ w, isPySpace c = false) ∧
    ∃ m, bytes_to_mnemonic (fun _ => 0) (List.range 16) testWordlist = Except.ok m ∧
      mnemonic_to_bytes m testWordlist = Except.ok (List.range 16) :=
  ⟨by decide, by decide, by decide, testWordlist_length, testWordlist_nodup,
    testWordlist_words_ok,
    C2_codec_roundtrip (fun _ => 0) (List.range 16) testWordlist (by decide) (by decide)
      (by decide) testWordlist_length testWordlist_nodup testWordlist_words_ok⟩

theorem mnemonic_to_bytes_bitlen_error {m : List Char} {W : List (List Char)}
    {idxs : List Nat} (h12 : (splitWs m).length = 12)
    (hmapM : (splitWs m).mapM (fun word => listIndex W word) = Except.ok idxs)
    (hlen : ((idxs.map (fun idx => zfill 11 (natBits idx))).flatten).length ≠ 132) :
    mnemonic_to_bytes m W = Except.error (PyError.valueError "Bit string length error") := by
  unfold mnemonic_to_bytes
  rw [if_neg (by omega)]
  show ((splitWs m).mapM (fun word => listIndex W word)).bind _ = _
  rw [hmapM]
  show (if ((idxs.map (fun idx => zfill 11 (natBits idx))).flatten).length ≠ 132 then _
    else _) = _
  rw [if_pos hlen]
  rfl

theorem listIndex_error_eq {W : List (List Char)} {w : List Char} {e : PyError}
    (h : listIndex W w = Except.error e) :
    e = PyError.valueError "is not in list" := by
  unfold listIndex at h
  cases hf : W.findIdx? (fun u => u == w) with
  | none =>
    rw [hf] at h
    cases h
    rfl
  | some j => rw [hf] at h; cases h

theorem mapM_except_error_of_exists {α β : Type} (f : α → Except PyError β) (e0 : PyError)
    (hcases : ∀ x, (∃ b, f x = Except.ok b) ∨ f x = Except.error e0) :
    ∀ l : List α, (∃ x ∈ l, f x = Except.error e0) → l.mapM f = Except.error e0 := by
  intro l
  induction l with
  | nil => intro ⟨x, hx, _⟩; cases hx
  | cons a l ih =>
    intro ⟨x, hx, hfx⟩
    rcases hcases a with ⟨b, hb⟩ | hb
    · have hxl : x ∈ l := by
        rcases List.mem_cons.mp hx with rfl | h
        · rw [hfx] at hb; cases hb
        · exact h
      rw [List.mapM_cons, hb, ih ⟨x, hxl, hfx⟩]
      rfl
    · rw [List.mapM_cons, hb]
      rfl

/-- C6: `mnemonic_to_bytes` fails with `InvalidMnemonicLength` (the
`ValueError "Mnemonic must have 12 words"`) exactly when the
whitespace-split word count differs from 12; with 12 words and some word
absent from the wordlist it fails with `UnknownWord` (the `ValueError`
raised by `list.index`); and with 12 known words and a wordlist of at most
2048 words it succeeds with exactly 16 bytes. -/
theorem C6_decode_error_contract (m : List Char) (W : List (List Char)) :
    (mnemonic_to_bytes m W =
        Except.error (PyError.valueError "Mnemonic must have 12 words") ↔
      (splitWs m).length ≠ 12) ∧
    ((splitWs m).length = 12 → (∃ w ∈ splitWs m, w ∉ W) →
      mnemonic_to_bytes m W = Except.error (PyError.valueError "is not in list")) ∧
    ((splitWs m).length = 12 → (∀ w ∈ splitWs m, w ∈ W) → W.length ≤ 2048 →
      ∃ bs, mnemonic_to_bytes m W = Except.ok bs ∧ bs.length = 16) := by
  refine ⟨⟨?fwd, fun h => mnemonic_to_bytes_len_error h⟩, ?mid, ?okk⟩
  case fwd =>
    intro h
    by_cases h12 : (splitWs m).length = 12
    · exfalso
      cases hm : (splitWs m).mapM (fun word => listIndex W word) with
      | error e =>
        have hres := mnemonic_to_bytes_mapM_error h12 hm
        rw [hres] at h
        injection h with h'
        obtain ⟨x, _, hfx⟩ := mapM_except_error_cases _ _ _ hm
        have he := listIndex_error_eq hfx
        rw [he] at h'
        exact absurd h' (by decide)
      | ok idxs =>
        by_cases hbl : ((idxs.map (fun idx => zfill 11 (natBits idx))).flatten).length = 132
        · rw [mnemonic_to_bytes_ok_eq h12 hm hbl] at h
          cases h
        · rw [mnemonic_to_bytes_bitlen_error h12 hm hbl] at h
          injection h with h'
          exact absurd h' (by decide)
    · exact h12
  case mid =>
    rintro h12 ⟨w0, hw0, hw0n⟩
    apply mnemonic_to_bytes_mapM_error h12
    exact mapM_except_error_of_exists _ _ (fun x => listIndex_cases W x) _
      ⟨w0, hw0, listIndex_error_of_not_mem hw0n⟩
  case okk =>
    intro h12 hmem hWle
    have hall : ∀ w ∈ splitWs m, listIndex W w = Except.ok (pyIdx W w) :=
      fun w hw => listIndex_pyIdx_of_mem (hmem w hw)
    have hmapM := mapM_except_ok _ (pyIdx W) _ hall
    have hlen132 :
        ((((splitWs m).map (pyIdx W)).map (fun idx => zfill 11 (natBits idx))).flatten).length
          = 132 := by
      rw [length_flatten_uniform 11 _ ?h11, List.length_map, List.length_map, h12]
      case h11 =>
        intro c hc
        obtain ⟨idx, hidx, rfl⟩ := List.mem_map.mp hc
        obtain ⟨w, hw, rfl⟩ := List.mem_map.mp hidx
        have hlt : pyIdx W w < W.length := listIndex_ok_lt (hall w hw)
        exact zfill_exact_length (by norm_num; omega) (by norm_num)
    refine ⟨_, mnemonic_to_bytes_ok_eq h12 hmapM hlen132, ?_⟩
    rw [List.length_map, List.length_range']

set_option maxRecDepth 200000 in
/-- Witness for C6: an empty mnemonic, a 12-known-word mnemonic, and a
12-word mnemonic containing one unknown word, over the concrete wordlist. -/
theorem C6_decode_error_contract_witness :
    mnemonic_to_bytes [] testWordlist =
      Except.error (PyError.valueError "Mnemonic must have 12 words") ∧
    mnemonic_to_bytes (joinSpaces ((List.range 11).map wordOfIdx ++ [['?', '?']]))
      testWordlist = Except.error (PyError.valueError "is not in list") ∧
    ∃ bs, mnemonic_to_bytes (joinSpaces ((List.range 12).map wordOfIdx)) testWordlist =
      Except.ok bs ∧ bs.length = 16 :=
  ⟨(C6_decode_error_contract [] testWordlist).1.mpr (by decide),
   (C6_decode_error_contract _ testWordlist).2.1 (by decide)
     ⟨['?', '?'], by decide, by decide⟩,
   (C6_decode_error_contract _ testWordlist).2.2 (by decide) (by decide)
     (by rw [testWordlist_length])⟩

theorem zfill11_split {t : Nat} (ht : t < 2048) :
    zfill 11 (natBits t) = zfill 7 (natBits (t / 16)) ++ zfill 4 (natBits (t % 16)) := by
  apply bits_inj
  · rw [zfill_exact_length (by norm_num; omega) (by norm_num), List.length_append,
      zfill_exact_length (by norm_num; omega) (by norm_num),
      zfill_exact_length (by norm_num; omega) (by norm_num)]
  · rw [bitsToNat_zfill, bitsToNat_natBits, bitsToNat_append, bitsToNat_zfill,
      bitsToNat_zfill, bitsToNat_natBits, bitsToNat_natBits,
      zfill_exact_length (show t % 16 < 2 ^ 4 by norm_num; omega) (by norm_num)]
    norm_num
    omega

/-- C4: the decode path never validates the embedded 4-bit checksum.  Every
failure of `mnemonic_to_bytes` is one of the three non-checksum errors (no
`ChecksumMismatch` exists), and two 12-word mnemonics that agree on their
first 11 words and whose last words' indices agree above the low 4 bits
(i.e. differ only in the trailing checksum bits) decode without error to
the same 16 entropy bytes. -/
theorem C4_checksum_ignored :
    (∀ (m : List Char) (W : List (List Char)) (e : PyError),
      mnemonic_to_bytes m W = Except.error e →
        e = PyError.valueError "Mnemonic must have 12 words" ∨
        e = PyError.valueError "is not in list" ∨
        e = PyError.valueError "Bit string length error") ∧
    (∀ (W : List (List Char)) (m1 m2 : List Char) (ws : List (List Char))
        (w1 w2 : List Char) (t1 t2 : Nat),
      W.length ≤ 2048 → splitWs m1 = ws ++ [w1] → splitWs m2 = ws ++ [w2] →
      ws.length = 11 → (∀ w ∈ ws, w ∈ W) → w1 ∈ W → w2 ∈ W →
      listIndex W w1 = Except.ok t1 → listIndex W w2 = Except.ok t2 →
      t1 / 16 = t2 / 16 →
      ∃ bs, mnemonic_to_bytes m1 W = Except.ok bs ∧
        mnemonic_to_bytes m2 W = Except.ok bs) := by
  constructor
  · intro m W e h
    by_cases h12 : (splitWs m).length = 12
    · cases hm : (splitWs m).mapM (fun word => listIndex W word) with
      | error e' =>
        have hres := mnemonic_to_bytes_mapM_error h12 hm
        rw [hres] at h
        injection h with h'
        obtain ⟨x, _, hfx⟩ := mapM_except_error_cases _ _ _ hm
        have he := listIndex_error_eq hfx
        right
        left
        rw [← h', he]
      | ok idxs =>
        by_cases hbl : ((idxs.map (fun idx => zfill 11 (natBits idx))).flatten).length = 132
        · rw [mnemonic_to_bytes_ok_eq h12 hm hbl] at h
          cases h
        · rw [mnemonic_to_bytes_bitlen_error h12 hm hbl] at h
          injection h with h'
          right
          right
          exact h'.symm
    · rw [mnemonic_to_bytes_len_error h12] at h
      injection h with h'
      left
      exact h'.symm
  · intro W m1 m2 ws w1 w2 t1 t2 hWle hs1 hs2 hws11 hwsW hw1 hw2 ht1 ht2 hdiv
    set P := ((ws.map (pyIdx W)).map (fun idx => zfill 11 (natBits idx))).flatten with hP
    have hPlen : P.length = 121 := by
      rw [hP, length_flatten_uniform 11 _ ?chunks, List.length_map, List.length_map, hws11]
      case chunks =>
        intro c hc
        obtain ⟨idx, hidx, rfl⟩ := List.mem_map.mp hc
        obtain ⟨w, hw, rfl⟩ := List.mem_map.mp hidx
        have hlt : pyIdx W w < W.length :=
          listIndex_ok_lt (listIndex_pyIdx_of_mem (hwsW w hw))
        exact zfill_exact_length (by norm_num; omega) (by norm_num)
    have key : ∀ (m : List Char) (wl : List Char) (t : Nat), splitWs m = ws ++ [wl] →
        wl ∈ W → listIndex W wl = Except.ok t →
        mnemonic_to_bytes m W = Except.ok ((List.range' 0 16 8).map (fun i =>
          bitsToNat ((((P ++ zfill 7 (natBits (t / 16))).drop i).take 8)))) := by
      intro m wl t hsplit hmem hidxok
      have htpy : t = pyIdx W wl := by
        have := listIndex_pyIdx_of_mem hmem
        rw [hidxok] at this
        injection this
      have htlt : t < 2048 := by
        have := listIndex_ok_lt hidxok
        omega
      have h12 : (splitWs m).length = 12 := by
        rw [hsplit, List.length_append, hws11]
        rfl
      have hall : ∀ w ∈ splitWs m, listIndex W w = Except.ok (pyIdx W w) := by
        rw [hsplit]
        intro w hw
        rcases List.mem_append.mp hw with h | h
        · exact listIndex_pyIdx_of_mem (hwsW w h)
        · rw [List.mem_singleton.mp h]
          exact listIndex_pyIdx_of_mem hmem
      have hmapM : (splitWs m).mapM (fun word => listIndex W word) =
          Except.ok (ws.map (pyIdx W) ++ [t]) := by
        have := mapM_except_ok _ (pyIdx W) _ hall
        rw [hsplit] at this ⊢
        rw [this, List.map_append]
        congr 2
        rw [htpy]
        rfl
      have hflat : (((ws.map (pyIdx W) ++ [t]).map
          (fun idx => zfill 11 (natBits idx))).flatten) = P ++ zfill 11 (natBits t) := by
        rw [List.map_append, List.flatten_append]
        congr 1
        simp
      have hbl : ((((ws.map (pyIdx W) ++ [t]).map
          (fun idx => zfill 11 (natBits idx))).flatten)).length = 132 := by
        rw [hflat, List.length_append, hPlen,
          zfill_exact_length (by norm_num; omega) (by norm_num)]
      have htake128 : (P ++ zfill 11 (natBits t)).take 128 =
          P ++ zfill 7 (natBits (t / 16)) := by
        rw [zfill11_split htlt, List.take_append_eq_append_take,
          List.take_of_length_le (by rw [hPlen]; norm_num), hPlen,
          show (128 - 121 : Nat) = 7 from rfl,
          List.take_append_of_le_length (by
            rw [zfill_exact_length (by norm_num; omega) (by norm_num)]),
          List.take_of_length_le (by
            rw [zfill_exact_length (by norm_num; omega) (by norm_num)])]
      rw [mnemonic_to_bytes_ok_eq h12 hmapM hbl]
      simp only [hflat, htake128]
    refine ⟨_, key m1 w1 t1 hs1 hw1 ht1, ?_⟩
    rw [key m2 w2 t2 hs2 hw2 ht2, hdiv]

set_option maxRecDepth 400000 in
/-- Witness for C4: the empty mnemonic's failure is a non-checksum error,
and two concrete 12-word mnemonics differing only in the last word's low
4 index bits decode to the same bytes. -/
theorem C4_checksum_ignored_witness :
    (PyError.valueError "Mnemonic must have 12 words" =
        PyError.valueError "Mnemonic must have 12 words" ∨
      PyError.valueError "Mnemonic must have 12 words" =
        PyError.valueError "is not in list" ∨
      PyError.valueError "Mnemonic must have 12 words" =
        PyError.valueError "Bit string length error") ∧
    ∃ bs, mnemonic_to_bytes (joinSpaces ((List.range 11).map (fun k => wordOfIdx (k + 20))
        ++ [wordOfIdx 0])) testWordlist = Except.ok bs ∧
      mnemonic_to_bytes (joinSpaces ((List.range 11).map (fun k => wordOfIdx (k + 20))
        ++ [wordOfIdx 5])) testWordlist = Except.ok bs :=
  ⟨C4_checksum_ignored.1 [] testWordlist _ (by rfl),
   C4_checksum_ignored.2 testWordlist
     (joinSpaces ((List.range 11).map (fun k => wordOfIdx (k + 20)) ++ [wordOfIdx 0]))
     (joinSpaces ((List.range 11).map (fun k => wordOfIdx (k + 20)) ++ [wordOfIdx 5]))
     ((List.range 11).map (fun k => wordOfIdx (k + 20))) (wordOfIdx 0) (wordOfIdx 5) 0 5
     (by rw [testWordlist_length]) (by decide) (by decide) (by decide) (by decide)
     (by decide) (by decide) (by rfl) (by rfl) (by decide)⟩

theorem bytesHex_length (bs : List Nat) : (bytesHex bs).length = 2 * bs.length := by
  unfold bytesHex
  rw [length_flatten_uniform 2 _ (by
    intro c hc
    obtain ⟨b, _, rfl⟩ := List.mem_map.mp hc
    rfl), List.length_map]
  ring

theorem hexChars_getD_mem (j : Nat) : hexChars.getD j '0' ∈ hexChars := by
  by_cases hj : j < hexChars.length
  · rw [List.getD_eq_getElem _ _ hj]
    exact List.getElem_mem hj
  · rw [List.getD_eq_default _ _ (by omega)]
    decide

theorem bytesHex_mem (bs : List Nat) : ∀ c ∈ bytesHex bs, c ∈ hexChars := by
  intro c hc
  unfold bytesHex at hc
  rw [List.mem_flatten] at hc
  obtain ⟨l, hl, hcl⟩ := hc
  obtain ⟨b, _, rfl⟩ := List.mem_map.mp hl
  rcases List.mem_cons.mp hcl with rfl | h
  · exact hexChars_getD_mem _
  · rcases List.mem_cons.mp h with rfl | h
    · exact hexChars_getD_mem _
    · cases h

/-- C7: `mnemonic_to_seed` is exactly the hex rendering of
`pbkdf2_hmac('sha512', utf8(mnemonic), utf8("mnemonic" + passphrase), 2048)`;
whenever that external primitive returns its documented 64 bytes, the seed
string has 128 characters, all lowercase hexadecimal digits, and the
passphrase defaults to the empty string. -/
theorem C7_seed_derivation (pbkdf2_hmac : List Char → List Nat → List Nat → Nat → List Nat)
    (m p : List Char)
    (hlen : (pbkdf2_hmac "sha512".data (utf8Encode m)
      (utf8Encode ("mnemonic".data ++ p)) 2048).length = 64) :
    mnemonic_to_seed pbkdf2_hmac m p =
      bytesHex (pbkdf2_hmac "sha512".data (utf8Encode m)
        (utf8Encode ("mnemonic".data ++ p)) 2048) ∧
    (mnemonic_to_seed pbkdf2_hmac m p).length = 128 ∧
    (∀ c ∈ mnemonic_to_seed pbkdf2_hmac m p, c ∈ hexChars) ∧
    mnemonic_to_seed pbkdf2_hmac m = mnemonic_to_seed pbkdf2_hmac m [] := by
  refine ⟨rfl, ?_, ?_, rfl⟩
  · show (bytesHex (pbkdf2_hmac "sha512".data (utf8Encode m)
      (utf8Encode ("mnemonic".data ++ p)) 2048)).length = 128
    rw [bytesHex_length, hlen]
  · exact bytesHex_mem _

/-- Witness for C7 with a stub external KDF returning 64 zero bytes. -/
theorem C7_seed_derivation_witness :
    ((fun (_ : List Char) (_ : List Nat) (_ : List Nat) (_ : Nat) =>
        List.replicate 64 0) "sha512".data (utf8Encode "abc".data)
        (utf8Encode ("mnemonic".data ++ "pw".data)) 2048).length = 64 ∧
    (mnemonic_to_seed (fun _ _ _ _ => List.replicate 64 0) "abc".data "pw".data =
      bytesHex ((fun (_ : List Char) (_ : List Nat) (_ : List Nat) (_ : Nat) =>
        List.replicate 64 0) "sha512".data (utf8Encode "abc".data)
        (utf8Encode ("mnemonic".data ++ "pw".data)) 2048) ∧
     (mnemonic_to_seed (fun _ _ _ _ => List.replicate 64 0) "abc".data "pw".data).length
        = 128 ∧
     (∀ c ∈ mnemonic_to_seed (fun _ _ _ _ => List.replicate 64 0) "abc".data "pw".data,
        c ∈ hexChars) ∧
     mnemonic_to_seed (fun _ _ _ _ => List.replicate 64 0) "abc".data =
       mnemonic_to_seed (fun _ _ _ _ => List.replicate 64 0) "abc".data []) :=
  ⟨by simp, C7_seed_derivation (fun _ _ _ _ => List.replicate 64 0) "abc".data "pw".data
    (by simp)⟩
